import Mathlib

/-!
# Verification of the bakery lock (`src/main.rs`)

This file shallowly embeds `RawBakeryLock<N>` from the repository source into
Lean as an interleaved transition system and proves the specified properties:
mutual exclusion, the structure of the ticket-choosing loop and of the wait
loop, the reachable-state ticket invariant, the single-writer frame property,
the behaviour of `new` and `unlock`, and the bounds-check faulting behaviour
for out-of-range thread identities.

The memory model is sequentially consistent interleaving of per-thread atomic
accesses: every shared-memory access of the Rust source (`AtomicBool` /
`AtomicU32` load or store) is one transition of the system, and the fences of
the source are no-ops under this semantics.  Each local spin iteration that
re-reads a cell is one (possibly stuttering) transition.
-/

set_option autoImplicit false

namespace Bakery

/-! ## Definitions -/

/-- `u32` modulus: ticket cells are `AtomicU32`, so `checked_add(1)` fails
exactly when the observed maximum is `TICKET_MOD - 1`. -/
def TICKET_MOD : ℕ := 4294967296

/-- Control location of one thread inside `RawBakeryLock::lock`/`unlock`
(`src/main.rs` lines 46-145), together with the thread-local data live at that
location.

* `ncs`: outside the lock (non-critical section), about to call `lock`.
* `chooseStart`: at the head of the choosing `loop` (line 47), about to
  perform `choosing[thread].store(true)` (line 48).
* `scan j m`: inside the `ticket.iter().map(load).max()` computation
  (lines 85-90): tickets of slots `< j` have been read, `m` is the maximum so
  far (starting from `0`, which does not change the result of `max` on
  nonnegative values for `N >= 1`).
* `clearChoosing k`: `ticket[thread].store(k)` (line 104) has been performed;
  about to perform `choosing[thread].store(false)` (line 112).
* `wait1 k o`: in the `for other in 0..N` loop (line 114) at index `o`, at the
  `while choosing[other].load()` spin (line 119) (or about to skip `o` when
  `o == thread`, line 115, or about to enter the critical section when
  `o = N`).
* `wait2 k o`: at the inner ticket spin for index `o` (lines 127-133), about
  to read `ticket[other]` (line 128).
* `crit k`: inside the critical section holding the lock with ticket `k`;
  the next step of this thread is `unlock`, i.e. `ticket[thread].store(0)`
  (line 144). -/
inductive PC : Type where
  | ncs : PC
  | chooseStart : PC
  | scan (j : ℕ) (m : ℕ) : PC
  | clearChoosing (k : ℕ) : PC
  | wait1 (k : ℕ) (o : ℕ) : PC
  | wait2 (k : ℕ) (o : ℕ) : PC
  | crit (k : ℕ) : PC
deriving DecidableEq, Repr

/-- Global state: the two shared arrays of `RawBakeryLock` (lines 28-31)
plus each thread's control location. -/
structure State (N : ℕ) : Type where
  choosing : Fin N → Bool
  ticket : Fin N → ℕ
  pc : Fin N → PC

/-- Pointwise array update (the effect of a store to one slot). -/
def updf {N : ℕ} {α : Type} (f : Fin N → α) (t : Fin N) (v : α) : Fin N → α :=
  fun u => if u = t then v else f u

/-- Rust tuple comparison `(a, b) < (c, d)` on `(u32, usize)`
(line 129 of the source). -/
def lexLt (a b c d : ℕ) : Prop := a < c ∨ (a = c ∧ b < d)

instance decLexLt (a b c d : ℕ) : Decidable (lexLt a b c d) := by
  unfold lexLt; infer_instance

/-- Store to `choosing[t]`. -/
def setChoosing {N : ℕ} (s : State N) (t : Fin N) (b : Bool) : State N :=
  { s with choosing := updf s.choosing t b }

/-- Store to `ticket[t]`. -/
def setTicket {N : ℕ} (s : State N) (t : Fin N) (k : ℕ) : State N :=
  { s with ticket := updf s.ticket t k }

/-- Move thread `t` to control location `p`. -/
def setPc {N : ℕ} (s : State N) (t : Fin N) (p : PC) : State N :=
  { s with pc := updf s.pc t p }

/-- One transition of thread `t`: the next shared-memory access (or local
control move) of `t` according to its control location, transcribed from
`RawBakeryLock::lock` (lines 46-139) and `RawBakeryLock::unlock`
(lines 141-145).  Spinning (a re-read that keeps the thread at the same
location) is the identity transition. -/
def step {N : ℕ} (s : State N) (t : Fin N) : State N :=
  match s.pc t with
  | .ncs =>
      -- the thread calls `lock(t)`: control enters the choosing loop
      setPc s t .chooseStart
  | .chooseStart =>
      -- line 48: `self.choosing[thread].store(true, Relaxed)`;
      -- line 83: `sc_fence_1()` is a no-op under SC interleaving
      setPc (setChoosing s t true) t (.scan 0 0)
  | .scan j m =>
      if h : j < N then
        -- lines 85-90: one `ticket[j].load(Relaxed)` of the `max` scan
        setPc s t (.scan (j + 1) (max m (s.ticket ⟨j, h⟩)))
      else if m + 1 < TICKET_MOD then
        -- line 92: `max_existing.checked_add(1)` succeeded; `break ticket`,
        -- then line 104: `self.ticket[thread].store(ticket, Relaxed)`
        setPc (setTicket s t (m + 1)) t (.clearChoosing (m + 1))
      else
        -- line 99: overflow: `self.choosing[thread].store(false, Relaxed)`,
        -- line 101: `hint::spin_loop()`, and retry the loop from the start
        setPc (setChoosing s t false) t .chooseStart
  | .clearChoosing k =>
      -- line 110: `sc_fence_2()` (no-op here);
      -- line 112: `self.choosing[thread].store(false, Relaxed)`
      setPc (setChoosing s t false) t (.wait1 k 0)
  | .wait1 k o =>
      if h : o < N then
        if o = t.val then
          -- line 115: `if other == thread { continue; }`
          setPc s t (.wait1 k (o + 1))
        else if s.choosing ⟨o, h⟩ then
          -- line 119: `while choosing[other].load(Relaxed)`: spin
          s
        else
          -- choosing[other] observed false; line 125 acquire fence (no-op)
          setPc s t (.wait2 k o)
      else
        -- the `for` loop is exhausted; line 138 acquire fence (no-op);
        -- `lock` returns and the thread is in its critical section
        setPc s t (.crit k)
  | .wait2 k o =>
      if h : o < N then
        if s.ticket ⟨o, h⟩ = 0 ∨ lexLt k t.val (s.ticket ⟨o, h⟩) o then
          -- line 129: `other_ticket == 0 || (ticket, thread) < (other_ticket, other)`:
          -- break to the next iteration of the `for` loop
          setPc s t (.wait1 k (o + 1))
        else
          -- line 132: `hint::spin_loop()`
          s
      else
        s
  | .crit _ =>
      -- the thread calls `unlock(t)`;
      -- line 144: `self.ticket[thread].store(0, Release)`
      setPc (setTicket s t 0) t .ncs

/-- `RawBakeryLock::new` (lines 34-44): all `choosing` cells `false`, all
`ticket` cells `0` (`new` has no failure path); every thread starts outside
the lock. -/
def initState (N : ℕ) : State N :=
  { choosing := fun _ => false, ticket := fun _ => 0, pc := fun _ => .ncs }

/-- States reachable from the fresh lock by any interleaving of thread steps. -/
inductive Reachable {N : ℕ} : State N → Prop where
  | init : Reachable (initState N)
  | step {s : State N} (t : Fin N) : Reachable s → Reachable (step s t)

/-- The same transitions as `step`, but for an arbitrary (unchecked) thread
identity `t : ℕ`, with Rust's bounds check on every array index made explicit:
an out-of-range index is a panic, modelled as `none`.  Because a thread with
`t ≥ N` owns no slot of the state, its control location is passed and
returned separately; the returned `State` carries the effect on the shared
arrays (its `pc` field is untouched). -/
def stepChecked {N : ℕ} (s : State N) (t : ℕ) : PC → Option (State N × PC)
  | .ncs => some (s, .chooseStart)
  | .chooseStart =>
      -- line 48: `self.choosing[thread]` is a bounds-checked index
      if h : t < N then some (setChoosing s ⟨t, h⟩ true, .scan 0 0) else none
  | .scan j m =>
      if hj : j < N then
        some (s, .scan (j + 1) (max m (s.ticket ⟨j, hj⟩)))
      else if m + 1 < TICKET_MOD then
        -- line 104: `self.ticket[thread]`
        if h : t < N then some (setTicket s ⟨t, h⟩ (m + 1), .clearChoosing (m + 1))
        else none
      else
        -- line 99: `self.choosing[thread]`
        if h : t < N then some (setChoosing s ⟨t, h⟩ false, .chooseStart) else none
  | .clearChoosing k =>
      -- line 112: `self.choosing[thread]`
      if h : t < N then some (setChoosing s ⟨t, h⟩ false, .wait1 k 0) else none
  | .wait1 k o =>
      if ho : o < N then
        if o = t then some (s, .wait1 k (o + 1))
        else if s.choosing ⟨o, ho⟩ then some (s, .wait1 k o)
        else some (s, .wait2 k o)
      else some (s, .crit k)
  | .wait2 k o =>
      if ho : o < N then
        if s.ticket ⟨o, ho⟩ = 0 ∨ lexLt k t (s.ticket ⟨o, ho⟩) o then
          some (s, .wait1 k (o + 1))
        else some (s, .wait2 k o)
      else some (s, .wait2 k o)
  | .crit _ =>
      -- line 144: `self.ticket[thread]`
      if h : t < N then some (setTicket s ⟨t, h⟩ 0, .ncs) else none

/-- `RawBakeryLock::unlock(thread)` as a standalone operation on the shared
state (lines 141-145): the single store `ticket[thread] = 0`.  The array
indexing panics for `thread ≥ N`, modelled as `none`.  It reads nothing — in
particular it does not inspect who, if anyone, holds the lock. -/
def unlockOp {N : ℕ} (s : State N) (thread : ℕ) : Option (State N) :=
  if h : thread < N then some (setTicket s ⟨thread, h⟩ 0) else none

/-- `n` consecutive transitions of thread `t` with no interference. -/
def run {N : ℕ} (s : State N) (t : Fin N) : ℕ → State N
  | 0 => s
  | n + 1 => run (step s t) t n

/-- The thread is inside its critical section (it holds the lock: `lock` has
returned and `unlock` has not yet been performed). -/
def PC.isCrit : PC → Bool
  | .crit _ => true
  | _ => false

/-- The thread is choosing a ticket: it is between its
`choosing[i].store(true)` and its `choosing[i].store(false)`.  In every
reachable state this is exactly when `choosing[i] = true`. -/
def PC.isChoosing : PC → Bool
  | .scan _ _ => true
  | .clearChoosing _ => true
  | _ => false

/-- The thread is waiting on the lock: `lock` has cleared `choosing` and is in
the `for`-loop spinning on the other threads. -/
def PC.isWaiting : PC → Bool
  | .wait1 _ _ => true
  | .wait2 _ _ => true
  | _ => false

/-- The ticket value the thread has stored into `ticket[i]` and not yet
released, as recorded by its control location (`none` before the store of
line 104 and after the store of line 144). -/
def PC.cTicket : PC → Option ℕ
  | .clearChoosing k => some k
  | .wait1 k _ => some k
  | .wait2 k _ => some k
  | .crit k => some k
  | _ => none

/-- Thread `p` is ordered after thread `i` (which has committed a ticket):
whatever `p` is doing, it cannot slip into its critical section before `i`
releases.  This is the classical bakery ordering predicate:

* if `p` is idle or has not yet read any ticket, it will observe `i`'s ticket
  (or a larger maximum) during its scan;
* if `p` is mid-scan, either it has not yet read slot `i`, or its running
  maximum already dominates `i`'s ticket;
* if `p` has committed a ticket, `i`'s `(ticket, id)` pair is lexicographically
  smaller, and if `p` is in its wait loop it has not yet passed slot `i`;
* `p` cannot be in its critical section.

`afterPC` is its control-location part: `a` is the claimant's ticket, `b` the
claimant's identity, `pv` the identity of the thread whose control location
this is; `After` instantiates it with the live values. -/
def afterPC (a b pv : ℕ) : PC → Prop
  | .ncs => True
  | .chooseStart => True
  | .scan j m => j ≤ b ∨ a ≤ m
  | .clearChoosing k => lexLt a b k pv
  | .wait1 k o => lexLt a b k pv ∧ o ≤ b
  | .wait2 k o => lexLt a b k pv ∧ o ≤ b
  | .crit _ => False

def After {N : ℕ} (s : State N) (p i : Fin N) : Prop :=
  0 < s.ticket i ∧ afterPC (s.ticket i) i.val p.val (s.pc p)

/-- The inductive invariant of the bakery lock.

* `flag`: `choosing[i]` is true exactly while `i` is choosing;
* `tk0`/`tkS`: `ticket[i]` is `0` before the ticket store and after release,
  and otherwise holds the committed ticket, which is positive and fits in
  `u32`;
* `scanB`/`w1B`/`w2B`: loop counters stay in range (and a thread never ends up
  comparing against its own slot in the inner wait);
* `oblW`/`oblC`: a waiting thread is `After`-dominated... more precisely, every
  slot the wait loop has already passed belongs to a thread that is ordered
  after it, and a thread in its critical section is ordered before everybody;
* `w2S`: if the thread being watched in the inner wait is currently
  mid-scan, then either that scan has not yet read the watcher's slot, or its
  running maximum already dominates the watcher's ticket. -/
structure Inv {N : ℕ} (s : State N) : Prop where
  flag : ∀ i, s.choosing i = (s.pc i).isChoosing
  tk0 : ∀ i, (s.pc i).cTicket = none → s.ticket i = 0
  tkS : ∀ i k, (s.pc i).cTicket = some k → s.ticket i = k ∧ 0 < k ∧ k < TICKET_MOD
  scanB : ∀ i j m, s.pc i = .scan j m → j ≤ N ∧ m < TICKET_MOD
  w1B : ∀ i k o, s.pc i = .wait1 k o → o ≤ N
  w2B : ∀ i k o, s.pc i = .wait2 k o → o < N ∧ o ≠ i.val
  oblW : ∀ i k o, (s.pc i = .wait1 k o ∨ s.pc i = .wait2 k o) →
    ∀ p, p ≠ i → p.val < o → After s p i
  oblC : ∀ i k, s.pc i = .crit k → ∀ p, p ≠ i → After s p i
  w2S : ∀ i k o (ho : o < N), s.pc i = .wait2 k o →
    ∀ j m, s.pc ⟨o, ho⟩ = .scan j m → j ≤ i.val ∨ k ≤ m

/-- A concrete two-thread execution: thread 0 runs alone from the fresh lock
through `lock(0)` into its critical section (10 transitions), while thread 1
stays idle. -/
def demoAcquired : State 2 := run (initState 2) 0 10

/-- A concrete one-thread execution stopped inside the choosing window:
`choosing[0]` has been stored `true`, no ticket has been stored yet. -/
def demoChoosing : State 1 := run (initState 1) 0 2

/-! Definitions for scheduled (fair) executions and for the starvation
schedule that refutes unconditional eventual entry. -/

/-- Run a finite schedule (a list of thread choices) from a state. -/
def applyList {N : ℕ} (s : State N) (l : List (Fin N)) : State N := l.foldl step s

/-- The infinite execution from the fresh lock driven by a schedule. -/
def traceOf {N : ℕ} (sched : ℕ → Fin N) : ℕ → State N
  | 0 => initState N
  | n + 1 => step (traceOf sched n) (sched n)

/-- Fair schedule: every thread is scheduled infinitely often. -/
def Fair {N : ℕ} (sched : ℕ → Fin N) : Prop :=
  ∀ t : Fin N, ∀ n : ℕ, ∃ m, n ≤ m ∧ sched m = t

/-- The thread is inside a `lock` call: it has called `lock` and `lock` has
not yet returned. -/
def inLock : PC → Bool
  | .ncs => false
  | .crit _ => false
  | _ => true

/-- Largest `u32` value: the ticket value whose observation makes
`checked_add(1)` fail. -/
def MAXT : ℕ := TICKET_MOD - 1

/-- A literal three-thread state given componentwise. -/
def mk3 (c0 c1 c2 : Bool) (t0 t1 t2 : ℕ) (p0 p1 p2 : PC) : State 3 :=
  { choosing := fun u => if u = 0 then c0 else if u = 1 then c1 else c2,
    ticket := fun u => if u = 0 then t0 else if u = 1 then t1 else t2,
    pc := fun u => if u = 0 then p0 else if u = 1 then p1 else p2 }

/-- The state after thread 0 has called `lock` on the fresh three-thread
lock and is parked at the head of its choosing loop. -/
def bstate : State 3 :=
  mk3 false false false 0 0 0 .chooseStart .ncs .ncs

/-- Ladder state with thread 1 holding ticket `k`: thread 0 parked at the
head of its choosing loop, thread 2 idle. -/
def ladd1 (k : ℕ) : State 3 :=
  mk3 false false false 0 k 0 .chooseStart (.crit k) .ncs

/-- Ladder state with thread 2 holding ticket `k`. -/
def ladd2 (k : ℕ) : State 3 :=
  mk3 false false false 0 0 k .chooseStart .ncs (.crit k)

/-- One ladder cycle: thread 2 acquires with ticket `k + 1` while thread 1
holds `k` and then releases. -/
def c12 : List (Fin 3) := [2, 2, 2, 2, 2, 2, 2, 2, 2, 2, 1, 2, 2, 2]

/-- The symmetric ladder cycle: thread 1 takes over from thread 2. -/
def c21 : List (Fin 3) := [1, 1, 1, 1, 1, 1, 1, 1, 1, 1, 1, 2, 1, 1]

/-- A double cycle raises the held ticket by two and returns it to thread 1. -/
def ddList : List (Fin 3) := c12 ++ c21

/-- `j` double cycles. -/
def climbSeq : ℕ → List (Fin 3)
  | 0 => []
  | j + 1 => climbSeq j ++ ddList

/-- Thread 1 acquires the fresh lock (ticket 1) in 13 steps. -/
def base13 : List (Fin 3) := [1, 1, 1, 1, 1, 1, 1, 1, 1, 1, 1, 1, 1]

/-- Thread 0 performs one full iteration of its choosing loop: it scans,
observes `MAXT`, overflows and retries. -/
def aRound : List (Fin 3) := [0, 0, 0, 0, 0]

/-- Number of double cycles needed to climb from ticket 1 to `MAXT`. -/
def jstar : ℕ := (MAXT - 1) / 2

/-- The part of the period in which thread 0 does not move: thread 1
acquires, then threads 1 and 2 climb the ticket value to `MAXT`. -/
def part1 : List (Fin 3) := base13 ++ climbSeq jstar

/-- One period of the starvation schedule: thread 1 acquires, threads 1 and 2
climb the ticket value to `MAXT`, thread 0 scans and overflows, the holder
drains. -/
def superList : List (Fin 3) := base13 ++ climbSeq jstar ++ aRound ++ [1]

/-- The starvation schedule: thread 0 calls `lock` once, then the period
repeats forever.  It is fair, and every acquiring thread releases, yet
thread 0 never enters its critical section. -/
def starveSched : ℕ → Fin 3 :=
  fun n => if n = 0 then 0 else superList.getD ((n - 1) % superList.length) 0

/-- The wait-loop index of a control location (`0` outside the wait loop). -/
def PC.oIdx : PC → ℕ
  | .wait1 _ o => o
  | .wait2 _ o => o
  | _ => 0

/-- The control location is in the wait loop holding committed ticket `k`. -/
def PC.waitsWith : PC → ℕ → Prop
  | .wait1 q _, k => q = k
  | .wait2 q _, k => q = k
  | _, _ => False

/-- Bookkeeping used in the liveness proof for a thread observed idle while a
watcher with committed ticket `k` and identity `xv` is stuck in its wait
loop: the thread's ticket slot is `0` until its next commit, a scan that has
passed slot `xv` carries a running maximum at least `k`, and every newly
committed ticket exceeds `k`. -/
def ySafe (k xv : ℕ) : PC → ℕ → Prop
  | .ncs, ty => ty = 0
  | .chooseStart, ty => ty = 0
  | .scan j mm, ty => ty = 0 ∧ (xv < j → k ≤ mm)
  | .clearChoosing q, ty => ty = q ∧ k < q
  | .wait1 q _, ty => ty = q ∧ k < q
  | .wait2 q _, ty => ty = q ∧ k < q
  | .crit q, ty => ty = q ∧ k < q

/-- A wait-loop control location with ticket `q` whose loop index has not yet
passed slot `xv`. -/
def blockedBelow (q xv : ℕ) (p : PC) : Prop :=
  ∃ o, o ≤ xv ∧ (p = .wait1 q o ∨ p = .wait2 q o)

/-- Remaining doorway work at a control location: it strictly decreases along
the owner's steps through the choosing phase whenever the overflow branch is
not taken. -/
def doorMeasure (N : ℕ) : PC → ℕ
  | .ncs => N + 4
  | .chooseStart => N + 3
  | .scan j _ => N + 2 - j
  | .clearChoosing _ => 1
  | _ => 0

/-! ## Basic lemmas about the state operations -/

@[simp] theorem updf_same {N : ℕ} {α : Type} (f : Fin N → α) (t : Fin N) (v : α) :
    updf f t v t = v := by
  simp [updf]

@[simp] theorem updf_ne {N : ℕ} {α : Type} (f : Fin N → α) (t u : Fin N) (v : α)
    (h : u ≠ t) : updf f t v u = f u := by
  simp [updf, h]

theorem TICKET_MOD_eq : TICKET_MOD = 2 ^ 32 := by decide

theorem lexLt_asymm {a b c d : ℕ} (h : lexLt a b c d) (h' : lexLt c d a b) : False := by
  rcases h with h | ⟨rfl, h⟩ <;> rcases h' with h' | ⟨h1, h'⟩ <;> omega

@[simp] theorem setChoosing_ticket {N : ℕ} (s : State N) (t : Fin N) (b : Bool) :
    (setChoosing s t b).ticket = s.ticket := rfl

@[simp] theorem setChoosing_pc {N : ℕ} (s : State N) (t : Fin N) (b : Bool) :
    (setChoosing s t b).pc = s.pc := rfl

@[simp] theorem setTicket_choosing {N : ℕ} (s : State N) (t : Fin N) (k : ℕ) :
    (setTicket s t k).choosing = s.choosing := rfl

@[simp] theorem setTicket_pc {N : ℕ} (s : State N) (t : Fin N) (k : ℕ) :
    (setTicket s t k).pc = s.pc := rfl

@[simp] theorem setPc_choosing {N : ℕ} (s : State N) (t : Fin N) (p : PC) :
    (setPc s t p).choosing = s.choosing := rfl

@[simp] theorem setPc_ticket {N : ℕ} (s : State N) (t : Fin N) (p : PC) :
    (setPc s t p).ticket = s.ticket := rfl

@[simp] theorem setChoosing_choosing {N : ℕ} (s : State N) (t : Fin N) (b : Bool) :
    (setChoosing s t b).choosing = updf s.choosing t b := rfl

@[simp] theorem setTicket_ticket {N : ℕ} (s : State N) (t : Fin N) (k : ℕ) :
    (setTicket s t k).ticket = updf s.ticket t k := rfl

@[simp] theorem setPc_pc {N : ℕ} (s : State N) (t : Fin N) (p : PC) :
    (setPc s t p).pc = updf s.pc t p := rfl

/-! ## Characterization of `step` at each control location -/

section StepEq

variable {N : ℕ} (s : State N) (t : Fin N)

theorem step_ncs (hpc : s.pc t = .ncs) :
    step s t = setPc s t .chooseStart := by
  unfold step; rw [hpc]

theorem step_chooseStart (hpc : s.pc t = .chooseStart) :
    step s t = setPc (setChoosing s t true) t (.scan 0 0) := by
  unfold step; rw [hpc]

theorem step_scan_lt {j m : ℕ} (hpc : s.pc t = .scan j m) (h : j < N) :
    step s t = setPc s t (.scan (j + 1) (max m (s.ticket ⟨j, h⟩))) := by
  unfold step; rw [hpc]; dsimp only; rw [dif_pos h]

theorem step_scan_ok {j m : ℕ} (hpc : s.pc t = .scan j m) (h : ¬ j < N)
    (hm : m + 1 < TICKET_MOD) :
    step s t = setPc (setTicket s t (m + 1)) t (.clearChoosing (m + 1)) := by
  unfold step; rw [hpc]; dsimp only; rw [dif_neg h, if_pos hm]

theorem step_scan_overflow {j m : ℕ} (hpc : s.pc t = .scan j m) (h : ¬ j < N)
    (hm : ¬ m + 1 < TICKET_MOD) :
    step s t = setPc (setChoosing s t false) t .chooseStart := by
  unfold step; rw [hpc]; dsimp only; rw [dif_neg h, if_neg hm]

theorem step_clearChoosing {k : ℕ} (hpc : s.pc t = .clearChoosing k) :
    step s t = setPc (setChoosing s t false) t (.wait1 k 0) := by
  unfold step; rw [hpc]

theorem step_wait1_self {k o : ℕ} (hpc : s.pc t = .wait1 k o) (h : o < N)
    (ho : o = t.val) :
    step s t = setPc s t (.wait1 k (o + 1)) := by
  unfold step; rw [hpc]; dsimp only; rw [dif_pos h, if_pos ho]

theorem step_wait1_spin {k o : ℕ} (hpc : s.pc t = .wait1 k o) (h : o < N)
    (ho : o ≠ t.val) (hc : s.choosing ⟨o, h⟩ = true) :
    step s t = s := by
  unfold step; rw [hpc]; dsimp only; rw [dif_pos h, if_neg ho, if_pos hc]

theorem step_wait1_pass {k o : ℕ} (hpc : s.pc t = .wait1 k o) (h : o < N)
    (ho : o ≠ t.val) (hc : ¬ s.choosing ⟨o, h⟩ = true) :
    step s t = setPc s t (.wait2 k o) := by
  unfold step; rw [hpc]; dsimp only; rw [dif_pos h, if_neg ho, if_neg hc]

theorem step_wait1_enter {k o : ℕ} (hpc : s.pc t = .wait1 k o) (h : ¬ o < N) :
    step s t = setPc s t (.crit k) := by
  unfold step; rw [hpc]; dsimp only; rw [dif_neg h]

theorem step_wait2_pass {k o : ℕ} (hpc : s.pc t = .wait2 k o) (h : o < N)
    (hcond : s.ticket ⟨o, h⟩ = 0 ∨ lexLt k t.val (s.ticket ⟨o, h⟩) o) :
    step s t = setPc s t (.wait1 k (o + 1)) := by
  unfold step; rw [hpc]; dsimp only; rw [dif_pos h, if_pos hcond]

theorem step_wait2_spin {k o : ℕ} (hpc : s.pc t = .wait2 k o) (h : o < N)
    (hcond : ¬ (s.ticket ⟨o, h⟩ = 0 ∨ lexLt k t.val (s.ticket ⟨o, h⟩) o)) :
    step s t = s := by
  unfold step; rw [hpc]; dsimp only; rw [dif_pos h, if_neg hcond]

theorem step_wait2_oob {k o : ℕ} (hpc : s.pc t = .wait2 k o) (h : ¬ o < N) :
    step s t = s := by
  unfold step; rw [hpc]; dsimp only; rw [dif_neg h]

theorem step_crit {k : ℕ} (hpc : s.pc t = .crit k) :
    step s t = setPc (setTicket s t 0) t .ncs := by
  unfold step; rw [hpc]

end StepEq

/-! ## Frame property: a step of thread `t` writes only slot `t` -/

section Frame

variable {N : ℕ}

theorem choosing_step_ne (s : State N) (t u : Fin N) (h : u ≠ t) :
    (step s t).choosing u = s.choosing u := by
  unfold step
  cases hpc : s.pc t <;> simp [h]
  · split <;> [simp; split] <;> simp [h]
  · split
    · split <;> [skip; split] <;> simp [h]
    · simp [h]
  · split <;> [split; skip] <;> simp [h]

theorem ticket_step_ne (s : State N) (t u : Fin N) (h : u ≠ t) :
    (step s t).ticket u = s.ticket u := by
  unfold step
  cases hpc : s.pc t <;> simp [h]
  · split <;> [simp; split] <;> simp [h]
  · split
    · split <;> [skip; split] <;> simp [h]
    · simp [h]
  · split <;> [split; skip] <;> simp [h]

theorem pc_step_ne (s : State N) (t u : Fin N) (h : u ≠ t) :
    (step s t).pc u = s.pc u := by
  unfold step
  cases hpc : s.pc t <;> simp [h]
  · split <;> [simp [h]; split] <;> simp [h]
  · split
    · split <;> [simp [h]; split] <;> simp [h]
    · simp [h]
  · split <;> [split; skip] <;> simp [h]

end Frame

/-! ## Iterated runs of a single thread -/

theorem run_succ_left {N : ℕ} (s : State N) (t : Fin N) (n : ℕ) :
    run s t (n + 1) = run (step s t) t n := rfl

theorem run_succ {N : ℕ} (s : State N) (t : Fin N) (n : ℕ) :
    run s t (n + 1) = step (run s t n) t := by
  induction n generalizing s with
  | zero => rfl
  | succ n ih => rw [run_succ_left, ih, run_succ_left]

theorem reachable_run {N : ℕ} {s : State N} (hs : Reachable s) (t : Fin N) (n : ℕ) :
    Reachable (run s t n) := by
  induction n generalizing s with
  | zero => exact hs
  | succ n ih => exact ih (Reachable.step t hs)

/-! ## Bounds-checked semantics: totality in range, faults out of range -/

theorem stepChecked_total {N : ℕ} (s : State N) (t : ℕ) (ht : t < N) (p : PC) :
    (stepChecked s t p).isSome := by
  cases p
  all_goals simp only [stepChecked]
  all_goals try split_ifs
  all_goals simp_all

theorem stepChecked_lock_entry_fault {N : ℕ} (s : State N) (t : ℕ) (ht : ¬ t < N) :
    stepChecked s t .chooseStart = none := by
  simp [stepChecked, ht]

theorem stepChecked_unlock_fault {N : ℕ} (s : State N) (t : ℕ) (k : ℕ) (ht : ¬ t < N) :
    stepChecked s t (.crit k) = none := by
  simp [stepChecked, ht]

theorem unlockOp_fault {N : ℕ} (s : State N) (t : ℕ) (ht : ¬ t < N) :
    unlockOp s t = none := by
  simp [unlockOp, ht]

theorem unlockOp_ok {N : ℕ} (s : State N) (t : ℕ) (ht : t < N) :
    unlockOp s t = some (setTicket s ⟨t, ht⟩ 0) := by
  simp [unlockOp, ht]

/-- For an in-range thread, the bounds-checked semantics agrees with the total
transition function `step`: same effect on the shared arrays, same new control
location, and no fault. -/
theorem stepChecked_agrees {N : ℕ} (s : State N) (t : Fin N) :
    ∃ s', stepChecked s t.val (s.pc t) = some (s', (step s t).pc t) ∧
      s'.choosing = (step s t).choosing ∧ s'.ticket = (step s t).ticket := by
  have ht : t.val < N := t.isLt
  cases hpc : s.pc t with
  | ncs =>
      rw [step_ncs s t hpc]
      exact ⟨s, by simp [stepChecked], by simp, by simp⟩
  | chooseStart =>
      rw [step_chooseStart s t hpc]
      exact ⟨setChoosing s t true, by simp [stepChecked, ht, Fin.eta], by simp, by simp⟩
  | scan j m =>
      by_cases hj : j < N
      · rw [step_scan_lt s t hpc hj]
        exact ⟨s, by simp [stepChecked, hj], by simp, by simp⟩
      · by_cases hm : m + 1 < TICKET_MOD
        · rw [step_scan_ok s t hpc hj hm]
          exact ⟨setTicket s t (m + 1),
            by simp [stepChecked, hj, hm, ht, Fin.eta], by simp, by simp⟩
        · rw [step_scan_overflow s t hpc hj hm]
          exact ⟨setChoosing s t false,
            by simp [stepChecked, hj, hm, ht, Fin.eta], by simp, by simp⟩
  | clearChoosing k =>
      rw [step_clearChoosing s t hpc]
      exact ⟨setChoosing s t false, by simp [stepChecked, ht, Fin.eta], by simp, by simp⟩
  | wait1 k o =>
      by_cases ho : o < N
      · by_cases hot : o = t.val
        · rw [step_wait1_self s t hpc ho hot]
          exact ⟨s, by simp [stepChecked, ho, hot], by simp, by simp⟩
        · by_cases hc : s.choosing ⟨o, ho⟩ = true
          · rw [step_wait1_spin s t hpc ho hot hc]
            exact ⟨s, by simp [stepChecked, ho, hot, hc, hpc], by simp, by simp⟩
          · rw [step_wait1_pass s t hpc ho hot hc]
            exact ⟨s, by simp [stepChecked, ho, hot, hc], by simp, by simp⟩
      · rw [step_wait1_enter s t hpc ho]
        exact ⟨s, by simp [stepChecked, ho], by simp, by simp⟩
  | wait2 k o =>
      by_cases ho : o < N
      · by_cases hcond : s.ticket ⟨o, ho⟩ = 0 ∨ lexLt k t.val (s.ticket ⟨o, ho⟩) o
        · rw [step_wait2_pass s t hpc ho hcond]
          exact ⟨s, by simp [stepChecked, ho, hcond], by simp, by simp⟩
        · rw [step_wait2_spin s t hpc ho hcond]
          exact ⟨s, by simp [stepChecked, ho, hcond, hpc], by simp, by simp⟩
      · rw [step_wait2_oob s t hpc ho]
        exact ⟨s, by simp [stepChecked, ho, hpc], by simp, by simp⟩
  | crit k =>
      rw [step_crit s t hpc]
      exact ⟨setTicket s t 0, by simp [stepChecked, ht, Fin.eta], by simp, by simp⟩

/-! ## Claims C3, C6, C7, C8, C9, C10 -/

/-- C9: `new()` returns a lock in which `choosing[i] = false` and
`ticket[i] = 0` for every `i < N`; `initState` is a total construction with
no error conditions. -/
theorem new_all_clear (N : ℕ) (i : Fin N) :
    (initState N).choosing i = false ∧ (initState N).ticket i = 0 :=
  ⟨rfl, rfl⟩

/-- C6: `unlock(thread)` for any `thread < N` performs exactly one action: it
stores `0` into `ticket[thread]`.  It never blocks or spins (the operation is
one unconditional total store) and modifies no other state: every other
ticket slot, the whole `choosing` array and every control location are
unchanged. -/
theorem unlock_single_store {N : ℕ} (s : State N) (thread : ℕ) (h : thread < N) :
    ∃ s', unlockOp s thread = some s' ∧
      s'.ticket ⟨thread, h⟩ = 0 ∧
      (∀ o : Fin N, o ≠ ⟨thread, h⟩ → s'.ticket o = s.ticket o) ∧
      s'.choosing = s.choosing ∧ s'.pc = s.pc := by
  refine ⟨setTicket s ⟨thread, h⟩ 0, unlockOp_ok s thread h, by simp, ?_, rfl, rfl⟩
  intro o ho
  simp [ho]

/-- Witness for C6: releasing the concretely acquired two-thread lock. -/
theorem unlock_single_store_witness : (unlockOp demoAcquired 0).isSome := by
  obtain ⟨s', hs', -⟩ := unlock_single_store demoAcquired 0 (by decide)
  rw [hs']
  rfl

/-- C10 (implicit): `unlock(thread)` performs no check that the caller holds
or ever acquired the lock.  Even when thread `t` is not in its critical
section, `unlock(t.val)` is silently accepted: it succeeds without fault or
waiting, stores `0` into `ticket[t]`, and changes nothing else. -/
theorem unlock_no_owner_check {N : ℕ} (s : State N) (t : Fin N)
    (hnot : (s.pc t).isCrit = false) :
    ∃ s', unlockOp s t.val = some s' ∧ s'.ticket t = 0 ∧
      (∀ o : Fin N, o ≠ t → s'.ticket o = s.ticket o) ∧
      s'.choosing = s.choosing ∧ s'.pc = s.pc := by
  refine ⟨setTicket s t 0, ?_, by simp, ?_, rfl, rfl⟩
  · rw [unlockOp_ok s t.val t.isLt]
  · intro o ho
    simp [ho]

/-- Witness for C10: unlocking a fresh lock that nobody ever locked. -/
theorem unlock_no_owner_check_witness : (unlockOp (initState 1) (0 : Fin 1).val).isSome := by
  obtain ⟨s', hs', -⟩ := unlock_no_owner_check (initState 1) 0 (by decide)
  rw [hs']
  rfl

/-- C7: calling `lock(thread)` or `unlock(thread)` with `thread ≥ N` fails
with an out-of-range (bounds-check) fault rather than returning — `lock` at
its very first array access `choosing[thread]`, `unlock` at its only access
`ticket[thread]`.  Conversely, for `thread < N` neither operation can fault:
the bounds-checked semantics succeeds at every control location. -/
theorem out_of_range_fault {N : ℕ} (s : State N) (thread : ℕ) :
    (N ≤ thread →
      stepChecked s thread .chooseStart = none ∧
      (∀ k, stepChecked s thread (.crit k) = none) ∧
      unlockOp s thread = none) ∧
    (thread < N →
      (∀ p, (stepChecked s thread p).isSome) ∧ (unlockOp s thread).isSome) := by
  constructor
  · intro hge
    have h : ¬ thread < N := by omega
    exact ⟨stepChecked_lock_entry_fault s thread h,
      fun k => stepChecked_unlock_fault s thread k h, unlockOp_fault s thread h⟩
  · intro hlt
    refine ⟨fun p => stepChecked_total s thread hlt p, ?_⟩
    rw [unlockOp_ok s thread hlt]
    rfl

/-- Witness for C7: thread identity `1` is out of range for a one-thread
lock and faults, identity `0` is in range and cannot fault. -/
theorem out_of_range_fault_witness :
    stepChecked (initState 1) 1 .chooseStart = none ∧
    (stepChecked (initState 1) 0 .chooseStart).isSome :=
  ⟨((out_of_range_fault (initState 1) 1).1 (by decide)).1,
   ((out_of_range_fault (initState 1) 0).2 (by decide)).1 .chooseStart⟩

/-- C8: single-writer frame: every transition of thread `t` — each step of
`lock(t)` and the `unlock(t)` store — leaves `choosing[o]` and `ticket[o]`
unchanged for every `o ≠ t`; other threads' slots are only read, never
written. -/
theorem single_writer_frame {N : ℕ} (s : State N) (t o : Fin N) (h : o ≠ t) :
    (step s t).choosing o = s.choosing o ∧ (step s t).ticket o = s.ticket o :=
  ⟨choosing_step_ne s t o h, ticket_step_ne s t o h⟩

/-- Witness for C8 on a concrete step. -/
theorem single_writer_frame_witness :
    (step (initState 2) 0).choosing 1 = (initState 2).choosing 1 ∧
    (step (initState 2) 0).ticket 1 = (initState 2).ticket 1 :=
  single_writer_frame (initState 2) 0 1 (by decide)

/-- C3: structure of the wait loop of `lock(t)` at index `o`: the loop skips
`o = t` without reading or waiting (a thread never waits on its own slot);
for `o ≠ t` it first spins exactly while `choosing[o]` is true, and then
spins on `ticket[o]` exactly while `ticket[o] ≠ 0` and
`(ticket[t], t) ≥ (ticket[o], o)` lexicographically — it proceeds past `o`
as soon as `o` has no ticket or `o`'s pair is strictly greater. -/
theorem wait_loop_structure {N : ℕ} (s : State N) (t : Fin N) (k o : ℕ) :
    (∀ (ho : o < N), s.pc t = .wait1 k o → o = t.val →
      step s t = setPc s t (.wait1 k (o + 1))) ∧
    (∀ (ho : o < N), s.pc t = .wait1 k o → o ≠ t.val →
      ((s.choosing ⟨o, ho⟩ = true → step s t = s) ∧
       (s.choosing ⟨o, ho⟩ = false → step s t = setPc s t (.wait2 k o)))) ∧
    (∀ (ho : o < N), s.pc t = .wait2 k o →
      ((step s t = s ↔
          (s.ticket ⟨o, ho⟩ ≠ 0 ∧ ¬ lexLt k t.val (s.ticket ⟨o, ho⟩) o)) ∧
       (step s t = setPc s t (.wait1 k (o + 1)) ↔
          (s.ticket ⟨o, ho⟩ = 0 ∨ lexLt k t.val (s.ticket ⟨o, ho⟩) o)))) := by
  refine ⟨?_, ?_, ?_⟩
  · intro ho hpc hot
    exact step_wait1_self s t hpc ho hot
  · intro ho hpc hot
    exact ⟨fun hc => step_wait1_spin s t hpc ho hot hc,
      fun hc => step_wait1_pass s t hpc ho hot (by simp [hc])⟩
  · intro ho hpc
    have hne : setPc s t (.wait1 k (o + 1)) ≠ s := by
      intro hh
      have := congrArg (fun st => State.pc st t) hh
      simp [hpc] at this
    by_cases hcond : s.ticket ⟨o, ho⟩ = 0 ∨ lexLt k t.val (s.ticket ⟨o, ho⟩) o
    · have hstep := step_wait2_pass s t hpc ho hcond
      refine ⟨⟨fun hs => ?_, fun hrhs => ?_⟩, ⟨fun _ => hcond, fun _ => hstep⟩⟩
      · rw [hstep] at hs
        exact absurd hs hne
      · rcases hcond with h | h
        exacts [absurd h hrhs.1, absurd h hrhs.2]
    · have hstep := step_wait2_spin s t hpc ho hcond
      rw [not_or] at hcond
      refine ⟨⟨fun _ => hcond, fun _ => hstep⟩, ⟨fun heq => ?_, fun hc => ?_⟩⟩
      · rw [hstep] at heq
        exact absurd heq.symm hne
      · rcases hc with h | h
        exacts [absurd h hcond.1, absurd h hcond.2]

/-- Witness for C3: in a concrete two-thread state waiting on slot 1, whose
ticket is 0, the wait loop passes slot 1 at once. -/
theorem wait_loop_structure_witness :
    step (run (initState 2) 0 8) 0 = setPc (run (initState 2) 0 8) 0 (.wait1 1 2) :=
  (((wait_loop_structure (run (initState 2) 0 8) 0 1 1).2.2
      (by decide) (by decide)).2).mpr (by decide)

/-! ## Claim C2: the choosing loop -/

/-- Running the scan of thread `t` alone from `scan j m` for the remaining
`N - j` reads ends at `scan N M`, where `M` is the maximum of `m` and the
tickets of slots `j, ..., N - 1`; the shared arrays are unchanged. -/
theorem run_scan {N : ℕ} (t : Fin N) (s : State N) (j m : ℕ)
    (hpc : s.pc t = .scan j m) (hj : j ≤ N) :
    ∃ M, (run s t (N - j)).pc t = .scan N M ∧
      (run s t (N - j)).choosing = s.choosing ∧
      (run s t (N - j)).ticket = s.ticket ∧
      m ≤ M ∧ (∀ u : Fin N, j ≤ u.val → s.ticket u ≤ M) ∧
      (M = m ∨ ∃ u : Fin N, j ≤ u.val ∧ s.ticket u = M) := by
  suffices h : ∀ (n : ℕ) (s : State N) (j m : ℕ), s.pc t = .scan j m → j ≤ N →
      N - j = n →
      ∃ M, (run s t (N - j)).pc t = .scan N M ∧
        (run s t (N - j)).choosing = s.choosing ∧
        (run s t (N - j)).ticket = s.ticket ∧
        m ≤ M ∧ (∀ u : Fin N, j ≤ u.val → s.ticket u ≤ M) ∧
        (M = m ∨ ∃ u : Fin N, j ≤ u.val ∧ s.ticket u = M) by
    exact h (N - j) s j m hpc hj rfl
  intro n
  induction n with
  | zero =>
      intro s j m hpc hj hn
      have hjN : j = N := by omega
      subst hjN
      rw [hn]
      exact ⟨m, hpc, rfl, rfl, le_refl m,
        fun u hu => absurd u.isLt (by omega), Or.inl rfl⟩
  | succ n ih =>
      intro s j m hpc hj hn
      have hjlt : j < N := by omega
      have hstep := step_scan_lt s t hpc hjlt
      have h1pc : (step s t).pc t = .scan (j + 1) (max m (s.ticket ⟨j, hjlt⟩)) := by
        rw [hstep]; simp
      have h1c : (step s t).choosing = s.choosing := by rw [hstep]; simp
      have h1t : (step s t).ticket = s.ticket := by rw [hstep]; simp
      have hrun : run s t (N - j) = run (step s t) t (N - (j + 1)) := by
        have hd : N - j = (N - (j + 1)) + 1 := by omega
        rw [hd, run_succ_left]
      obtain ⟨M, hM1, hM2, hM3, hM4, hM5, hM6⟩ :=
        ih (step s t) (j + 1) (max m (s.ticket ⟨j, hjlt⟩)) h1pc (by omega) (by omega)
      refine ⟨M, by rw [hrun]; exact hM1,
        by rw [hrun, hM2, h1c],
        by rw [hrun, hM3, h1t],
        le_trans (le_max_left _ _) hM4, ?_, ?_⟩
      · intro u hu
        rcases eq_or_lt_of_le hu with hju | hju
        · have huj : u = ⟨j, hjlt⟩ := Fin.ext hju.symm
          rw [huj]
          exact le_trans (le_max_right _ _) hM4
        · have := hM5 u (by omega)
          rwa [h1t] at this
      · rcases hM6 with hM | ⟨u, hu1, hu2⟩
        · rcases max_cases m (s.ticket ⟨j, hjlt⟩) with ⟨hmx, -⟩ | ⟨hmx, -⟩
          · exact Or.inl (by rw [hM, hmx])
          · exact Or.inr ⟨⟨j, hjlt⟩, le_refl j, by rw [← hmx, ← hM]⟩
        · rw [h1t] at hu2
          exact Or.inr ⟨u, Nat.le_of_succ_le hu1, hu2⟩

/-- C2: one iteration of the choosing loop, from its head: the thread stores
`choosing[t] = true`; it then reads all `N` ticket slots, computing their
maximum `M` (the shared arrays are untouched by the scan); then, if `M + 1`
does not overflow `u32`, it stores `M + 1` into `ticket[t]` and leaves the
loop, and otherwise it stores `choosing[t] = false`, yields the processor,
and retries from the head of the loop — the overflow branch is ordinary
control flow and never a fault: its bounds-checked semantics still succeeds. -/
theorem choosing_loop_iteration {N : ℕ} (s : State N) (t : Fin N)
    (hpc : s.pc t = .chooseStart) :
    (step s t).choosing t = true ∧ (step s t).pc t = .scan 0 0 ∧
    ∃ M, (run s t (N + 1)).pc t = .scan N M ∧
      (run s t (N + 1)).ticket = s.ticket ∧
      (∀ u : Fin N, s.ticket u ≤ M) ∧
      (M = 0 ∨ ∃ u : Fin N, s.ticket u = M) ∧
      (M + 1 < TICKET_MOD →
        (run s t (N + 2)).ticket t = M + 1 ∧
        (run s t (N + 2)).pc t = .clearChoosing (M + 1)) ∧
      (¬ M + 1 < TICKET_MOD →
        (run s t (N + 2)).choosing t = false ∧
        (run s t (N + 2)).pc t = .chooseStart ∧
        (stepChecked (run s t (N + 1)) t.val (.scan N M)).isSome) := by
  have hstep := step_chooseStart s t hpc
  have h1pc : (step s t).pc t = .scan 0 0 := by rw [hstep]; simp
  have h1c : (step s t).choosing t = true := by rw [hstep]; simp
  have h1t : (step s t).ticket = s.ticket := by rw [hstep]; simp
  refine ⟨h1c, h1pc, ?_⟩
  obtain ⟨M, hM1, hM2, hM3, -, hM5, hM6⟩ := run_scan t (step s t) 0 0 h1pc (by omega)
  rw [Nat.sub_zero] at hM1 hM3
  have hrun1 : run s t (N + 1) = run (step s t) t N := run_succ_left s t N
  have hs2pc : (run s t (N + 1)).pc t = .scan N M := by rw [hrun1]; exact hM1
  have hs2t : (run s t (N + 1)).ticket = s.ticket := by rw [hrun1, hM3, h1t]
  have hrun2 : run s t (N + 2) = step (run s t (N + 1)) t := run_succ s t (N + 1)
  refine ⟨M, hs2pc, hs2t, ?_, ?_, ?_, ?_⟩
  · intro u
    have := hM5 u (Nat.zero_le _)
    rwa [h1t] at this
  · rcases hM6 with hM | ⟨u, -, hu⟩
    · exact Or.inl hM
    · rw [h1t] at hu
      exact Or.inr ⟨u, hu⟩
  · intro hm
    have := step_scan_ok (run s t (N + 1)) t hs2pc (lt_irrefl N) hm
    rw [hrun2, this]
    simp
  · intro hm
    have := step_scan_overflow (run s t (N + 1)) t hs2pc (lt_irrefl N) hm
    rw [hrun2, this]
    exact ⟨by simp, by simp, stepChecked_total _ t.val t.isLt _⟩

/-- Witness for C2: a concrete one-thread iteration of the choosing loop. -/
theorem choosing_loop_iteration_witness :
    (step (step (initState 1) 0) 0).choosing 0 = true :=
  (choosing_loop_iteration (step (initState 1) 0) 0 (by decide)).1

/-! ## The inductive invariant: basic consequences -/

theorem lexLt_intro_lt {a b c d : ℕ} (h : a < c) : lexLt a b c d := Or.inl h

theorem lexLt_intro_eq {a b c d : ℕ} (h1 : a = c) (h2 : b < d) : lexLt a b c d :=
  Or.inr ⟨h1, h2⟩

theorem ticket_lt_mod {N : ℕ} {s : State N} (hInv : Inv s) (u : Fin N) :
    s.ticket u < TICKET_MOD := by
  cases hc : (s.pc u).cTicket with
  | none =>
      rw [hInv.tk0 u hc]
      decide
  | some k =>
      obtain ⟨h1, -, h3⟩ := hInv.tkS u k hc
      rw [h1]
      exact h3

/-- In every invariant state, `choosing[u] = false` rules out the scan and the
clear-choosing locations. -/
theorem pc_not_scan_of_not_choosing {N : ℕ} {s : State N} (hInv : Inv s)
    {u : Fin N} (hc : s.choosing u = false) {j m : ℕ} : s.pc u ≠ .scan j m := by
  intro hh
  have := hInv.flag u
  rw [hc, hh] at this
  simp [PC.isChoosing] at this

/-! ## Preservation of `After` -/

theorem After_of_eq {N : ℕ} {s s1 : State N} {p i : Fin N}
    (hpc : s1.pc p = s.pc p) (htk : s1.ticket i = s.ticket i)
    (hA : After s p i) : After s1 p i := by
  unfold After at *
  rw [hpc, htk]
  exact hA

/-- A step of a thread other than `p` and `i` cannot disturb `After s p i`. -/
theorem After_step_of_ne {N : ℕ} {s : State N} (t : Fin N) {p i : Fin N}
    (hp : p ≠ t) (hi : i ≠ t) (hA : After s p i) : After (step s t) p i :=
  After_of_eq (pc_step_ne s t p hp) (ticket_step_ne s t i hi) hA

/-- The stepping thread `t` itself cannot destroy `After s t i`: whatever its
location, its own transition keeps it ordered after the claimant `i`. -/
theorem After_step_self {N : ℕ} {s : State N} (hInv : Inv s) {t i : Fin N}
    (hne : i ≠ t) (hA : After s t i) : After (step s t) t i := by
  have hti : (step s t).ticket i = s.ticket i := ticket_step_ne s t i hne
  obtain ⟨hpos, hA2⟩ := hA
  refine ⟨by rwa [hti], ?_⟩
  cases hpc : s.pc t with
  | ncs =>
      rw [step_ncs s t hpc]
      simp [afterPC]
  | chooseStart =>
      rw [step_chooseStart s t hpc]
      simp [afterPC]
  | scan j m =>
      rw [hpc] at hA2
      simp only [afterPC] at hA2
      by_cases hj : j < N
      · rw [step_scan_lt s t hpc hj]
        simp only [setPc_pc, setPc_ticket, updf_same, afterPC]
        rcases hA2 with hji | ham
        · rcases eq_or_lt_of_le hji with heq | hlt
          · right
            have hji2 : (⟨j, hj⟩ : Fin N) = i := Fin.ext heq
            rw [hji2]
            exact le_max_right _ _
          · left
            omega
        · exact Or.inr (le_trans ham (le_max_left _ _))
      · by_cases hm : m + 1 < TICKET_MOD
        · rw [step_scan_ok s t hpc hj hm]
          simp only [setPc_pc, setTicket_pc, updf_same, afterPC, setPc_ticket,
            setTicket_ticket]
          have hia : s.ticket i ≤ m := by
            rcases hA2 with hji | ham
            · exact absurd (lt_of_le_of_lt hji i.isLt) hj
            · exact ham
          rw [updf_ne s.ticket t i (m + 1) hne]
          exact lexLt_intro_lt (by omega)
        · rw [step_scan_overflow s t hpc hj hm]
          simp [afterPC]
  | clearChoosing k =>
      rw [hpc] at hA2
      simp only [afterPC] at hA2
      rw [step_clearChoosing s t hpc]
      simp only [setPc_pc, setChoosing_pc, updf_same, afterPC, setPc_ticket,
        setChoosing_ticket]
      exact ⟨hA2, Nat.zero_le _⟩
  | wait1 k o =>
      rw [hpc] at hA2
      simp only [afterPC] at hA2
      by_cases ho : o < N
      · by_cases hot : o = t.val
        · rw [step_wait1_self s t hpc ho hot]
          simp only [setPc_pc, updf_same, afterPC, setPc_ticket]
          refine ⟨hA2.1, ?_⟩
          have hne2 : o ≠ i.val := by
            rw [hot]
            intro hh
            exact hne (Fin.ext hh.symm)
          have := hA2.2
          omega
        · by_cases hc : s.choosing ⟨o, ho⟩ = true
          · rw [step_wait1_spin s t hpc ho hot hc, hpc]
            simp only [afterPC]
            exact hA2
          · rw [step_wait1_pass s t hpc ho hot (by simp [hc])]
            simp only [setPc_pc, updf_same, afterPC, setPc_ticket]
            exact hA2
      · exact absurd (lt_of_le_of_lt hA2.2 i.isLt) ho
  | wait2 k o =>
      rw [hpc] at hA2
      simp only [afterPC] at hA2
      by_cases ho : o < N
      · by_cases hcond : s.ticket ⟨o, ho⟩ = 0 ∨ lexLt k t.val (s.ticket ⟨o, ho⟩) o
        · rw [step_wait2_pass s t hpc ho hcond]
          simp only [setPc_pc, updf_same, afterPC, setPc_ticket]
          refine ⟨hA2.1, ?_⟩
          have hoi : o ≠ i.val := by
            intro heq
            subst heq
            rw [Fin.eta] at hcond
            rcases hcond with h0 | hlex
            · omega
            · exact lexLt_asymm hA2.1 hlex
          have := hA2.2
          omega
        · rw [step_wait2_spin s t hpc ho hcond, hpc]
          simp only [afterPC]
          exact hA2
      · rw [step_wait2_oob s t hpc ho, hpc]
        simp only [afterPC]
        exact hA2
  | crit kk =>
      rw [hpc] at hA2
      simp only [afterPC] at hA2

/-- When the waiting thread `t` passes slot `o` of its inner wait (it observes
`ticket[o] = 0` or a lexicographically larger pair), the thread owning slot
`o` really is ordered after `t`. -/
theorem After_new {N : ℕ} {s : State N} (hInv : Inv s) {t : Fin N} {k o : ℕ}
    (hpc : s.pc t = .wait2 k o) (ho : o < N)
    (hcond : s.ticket ⟨o, ho⟩ = 0 ∨ lexLt k t.val (s.ticket ⟨o, ho⟩) o) :
    After s ⟨o, ho⟩ t := by
  have hov : o ≠ t.val := (hInv.w2B t k o hpc).2
  have hto : (⟨o, ho⟩ : Fin N) ≠ t := fun hh => hov (congrArg Fin.val hh)
  have htkS := hInv.tkS t k (by rw [hpc]; rfl)
  refine ⟨by rw [htkS.1]; exact htkS.2.1, ?_⟩
  rw [htkS.1]
  cases hpo : s.pc ⟨o, ho⟩ with
  | ncs => simp [afterPC]
  | chooseStart => simp [afterPC]
  | scan j m =>
      simp only [afterPC]
      exact hInv.w2S t k o ho hpc j m hpo
  | clearChoosing ko =>
      simp only [afterPC]
      have htko := hInv.tkS ⟨o, ho⟩ ko (by rw [hpo]; rfl)
      rcases hcond with h0 | hlex
      · rw [htko.1] at h0
        exact absurd h0 (by omega)
      · rw [htko.1] at hlex
        exact hlex
  | wait1 ko oo =>
      simp only [afterPC]
      have htko := hInv.tkS ⟨o, ho⟩ ko (by rw [hpo]; rfl)
      rcases hcond with h0 | hlex
      · rw [htko.1] at h0
        exact absurd h0 (by omega)
      · rw [htko.1] at hlex
        refine ⟨hlex, ?_⟩
        by_contra hgt
        push_neg at hgt
        obtain ⟨-, hB⟩ := hInv.oblW ⟨o, ho⟩ ko oo (Or.inl hpo) t (Ne.symm hto) hgt
        rw [hpc] at hB
        simp only [afterPC] at hB
        rw [htko.1] at hB
        exact lexLt_asymm hlex hB.1
  | wait2 ko oo =>
      simp only [afterPC]
      have htko := hInv.tkS ⟨o, ho⟩ ko (by rw [hpo]; rfl)
      rcases hcond with h0 | hlex
      · rw [htko.1] at h0
        exact absurd h0 (by omega)
      · rw [htko.1] at hlex
        refine ⟨hlex, ?_⟩
        by_contra hgt
        push_neg at hgt
        obtain ⟨-, hB⟩ := hInv.oblW ⟨o, ho⟩ ko oo (Or.inr hpo) t (Ne.symm hto) hgt
        rw [hpc] at hB
        simp only [afterPC] at hB
        rw [htko.1] at hB
        exact lexLt_asymm hlex hB.1
  | crit ko =>
      simp only [afterPC]
      have htko := hInv.tkS ⟨o, ho⟩ ko (by rw [hpo]; rfl)
      obtain ⟨-, hB⟩ := hInv.oblC ⟨o, ho⟩ ko hpo t (Ne.symm hto)
      rw [hpc] at hB
      simp only [afterPC] at hB
      rw [htko.1] at hB
      rcases hcond with h0 | hlex
      · rw [htko.1] at h0
        exact absurd h0 (by omega)
      · rw [htko.1] at hlex
        exact lexLt_asymm hlex hB.1

/-! ## Preservation of the invariant: components of threads other than the
stepping one -/

section InvOther

variable {N : ℕ} {s : State N} (t : Fin N) {i : Fin N}

theorem flag_step_of_ne (hInv : Inv s) (hit : i ≠ t) :
    (step s t).choosing i = ((step s t).pc i).isChoosing := by
  rw [choosing_step_ne s t i hit, pc_step_ne s t i hit]
  exact hInv.flag i

theorem tk0_step_of_ne (hInv : Inv s) (hit : i ≠ t) :
    ((step s t).pc i).cTicket = none → (step s t).ticket i = 0 := by
  rw [pc_step_ne s t i hit, ticket_step_ne s t i hit]
  exact hInv.tk0 i

theorem tkS_step_of_ne (hInv : Inv s) (hit : i ≠ t) : ∀ k,
    ((step s t).pc i).cTicket = some k →
    (step s t).ticket i = k ∧ 0 < k ∧ k < TICKET_MOD := by
  rw [pc_step_ne s t i hit, ticket_step_ne s t i hit]
  exact hInv.tkS i

theorem scanB_step_of_ne (hInv : Inv s) (hit : i ≠ t) : ∀ j m,
    (step s t).pc i = .scan j m → j ≤ N ∧ m < TICKET_MOD := by
  rw [pc_step_ne s t i hit]
  exact hInv.scanB i

theorem w1B_step_of_ne (hInv : Inv s) (hit : i ≠ t) : ∀ k o,
    (step s t).pc i = .wait1 k o → o ≤ N := by
  rw [pc_step_ne s t i hit]
  exact hInv.w1B i

theorem w2B_step_of_ne (hInv : Inv s) (hit : i ≠ t) : ∀ k o,
    (step s t).pc i = .wait2 k o → o < N ∧ o ≠ i.val := by
  rw [pc_step_ne s t i hit]
  exact hInv.w2B i

theorem oblW_step_of_ne (hInv : Inv s) (hit : i ≠ t) {k o : ℕ}
    (hio : (step s t).pc i = .wait1 k o ∨ (step s t).pc i = .wait2 k o)
    {p : Fin N} (hpi : p ≠ i) (hpo : p.val < o) : After (step s t) p i := by
  rw [pc_step_ne s t i hit] at hio
  have hA : After s p i := hInv.oblW i k o hio p hpi hpo
  rcases eq_or_ne p t with rfl | hpt
  · exact After_step_self hInv hit hA
  · exact After_step_of_ne t hpt hit hA

theorem oblC_step_of_ne (hInv : Inv s) (hit : i ≠ t) {k : ℕ}
    (hio : (step s t).pc i = .crit k)
    {p : Fin N} (hpi : p ≠ i) : After (step s t) p i := by
  rw [pc_step_ne s t i hit] at hio
  have hA : After s p i := hInv.oblC i k hio p hpi
  rcases eq_or_ne p t with rfl | hpt
  · exact After_step_self hInv hit hA
  · exact After_step_of_ne t hpt hit hA

theorem w2S_step_of_ne (hInv : Inv s) (hit : i ≠ t) {k o : ℕ} (ho : o < N)
    (hto : (⟨o, ho⟩ : Fin N) ≠ t)
    (hio : (step s t).pc i = .wait2 k o) {j m : ℕ}
    (hsc : (step s t).pc ⟨o, ho⟩ = .scan j m) : j ≤ i.val ∨ k ≤ m := by
  rw [pc_step_ne s t i hit] at hio
  rw [pc_step_ne s t _ hto] at hsc
  exact hInv.w2S i k o ho hio j m hsc

end InvOther

/-! ## Preservation of the invariant: case analysis on the stepping thread -/

theorem inv_step_ncs {N : ℕ} {s : State N} (hInv : Inv s) (t : Fin N)
    (hpc : s.pc t = .ncs) : Inv (step s t) := by
  have hstep := step_ncs s t hpc
  have hft := hInv.flag t
  rw [hpc] at hft
  constructor
  case flag =>
    intro i
    rcases eq_or_ne i t with rfl | hit
    · rw [hstep]
      simpa [PC.isChoosing] using hft
    · exact flag_step_of_ne t hInv hit
  case tk0 =>
    intro i
    rcases eq_or_ne i t with rfl | hit
    · intro hnone
      rw [hstep]
      simpa using hInv.tk0 i (by rw [hpc]; rfl)
    · exact tk0_step_of_ne t hInv hit
  case tkS =>
    intro i
    rcases eq_or_ne i t with rfl | hit
    · intro k hk
      rw [hstep] at hk
      simp [PC.cTicket] at hk
    · exact tkS_step_of_ne t hInv hit
  case scanB =>
    intro i
    rcases eq_or_ne i t with rfl | hit
    · intro j m hsc
      rw [hstep] at hsc
      simp at hsc
    · exact scanB_step_of_ne t hInv hit
  case w1B =>
    intro i
    rcases eq_or_ne i t with rfl | hit
    · intro k o hw
      rw [hstep] at hw
      simp at hw
    · exact w1B_step_of_ne t hInv hit
  case w2B =>
    intro i
    rcases eq_or_ne i t with rfl | hit
    · intro k o hw
      rw [hstep] at hw
      simp at hw
    · exact w2B_step_of_ne t hInv hit
  case oblW =>
    intro i k o hio p hpi hpo
    rcases eq_or_ne i t with rfl | hit
    · rw [hstep] at hio
      simp at hio
    · exact oblW_step_of_ne t hInv hit hio hpi hpo
  case oblC =>
    intro i k hio p hpi
    rcases eq_or_ne i t with rfl | hit
    · rw [hstep] at hio
      simp at hio
    · exact oblC_step_of_ne t hInv hit hio hpi
  case w2S =>
    intro i k o ho hio j m hsc
    rcases eq_or_ne i t with rfl | hit
    · rw [hstep] at hio
      simp at hio
    · rcases eq_or_ne (⟨o, ho⟩ : Fin N) t with hot | hot
      · rw [hot, hstep] at hsc
        simp at hsc
      · exact w2S_step_of_ne t hInv hit ho hot hio hsc

theorem inv_step_chooseStart {N : ℕ} {s : State N} (hInv : Inv s) (t : Fin N)
    (hpc : s.pc t = .chooseStart) : Inv (step s t) := by
  have hstep := step_chooseStart s t hpc
  constructor
  case flag =>
    intro i
    rcases eq_or_ne i t with rfl | hit
    · rw [hstep]
      simp [PC.isChoosing]
    · exact flag_step_of_ne t hInv hit
  case tk0 =>
    intro i
    rcases eq_or_ne i t with rfl | hit
    · intro hnone
      rw [hstep]
      simpa using hInv.tk0 i (by rw [hpc]; rfl)
    · exact tk0_step_of_ne t hInv hit
  case tkS =>
    intro i
    rcases eq_or_ne i t with rfl | hit
    · intro k hk
      rw [hstep] at hk
      simp [PC.cTicket] at hk
    · exact tkS_step_of_ne t hInv hit
  case scanB =>
    intro i
    rcases eq_or_ne i t with rfl | hit
    · intro j m hsc
      rw [hstep] at hsc
      simp at hsc
      obtain ⟨hj, hm⟩ := hsc
      have h0 : (0 : ℕ) < TICKET_MOD := by decide
      constructor <;> omega
    · exact scanB_step_of_ne t hInv hit
  case w1B =>
    intro i
    rcases eq_or_ne i t with rfl | hit
    · intro k o hw
      rw [hstep] at hw
      simp at hw
    · exact w1B_step_of_ne t hInv hit
  case w2B =>
    intro i
    rcases eq_or_ne i t with rfl | hit
    · intro k o hw
      rw [hstep] at hw
      simp at hw
    · exact w2B_step_of_ne t hInv hit
  case oblW =>
    intro i k o hio p hpi hpo
    rcases eq_or_ne i t with rfl | hit
    · rw [hstep] at hio
      simp at hio
    · exact oblW_step_of_ne t hInv hit hio hpi hpo
  case oblC =>
    intro i k hio p hpi
    rcases eq_or_ne i t with rfl | hit
    · rw [hstep] at hio
      simp at hio
    · exact oblC_step_of_ne t hInv hit hio hpi
  case w2S =>
    intro i k o ho hio j m hsc
    rcases eq_or_ne i t with rfl | hit
    · rw [hstep] at hio
      simp at hio
    · rcases eq_or_ne (⟨o, ho⟩ : Fin N) t with hot | hot
      · rw [hot, hstep] at hsc
        simp at hsc
        left
        omega
      · exact w2S_step_of_ne t hInv hit ho hot hio hsc

theorem inv_step_clearChoosing {N : ℕ} {s : State N} (hInv : Inv s) (t : Fin N)
    {k0 : ℕ} (hpc : s.pc t = .clearChoosing k0) : Inv (step s t) := by
  have hstep := step_clearChoosing s t hpc
  constructor
  case flag =>
    intro i
    rcases eq_or_ne i t with rfl | hit
    · rw [hstep]
      simp [PC.isChoosing]
    · exact flag_step_of_ne t hInv hit
  case tk0 =>
    intro i
    rcases eq_or_ne i t with rfl | hit
    · intro hnone
      rw [hstep] at hnone
      simp [PC.cTicket] at hnone
    · exact tk0_step_of_ne t hInv hit
  case tkS =>
    intro i
    rcases eq_or_ne i t with rfl | hit
    · intro k hk
      rw [hstep] at hk
      simp [PC.cTicket] at hk
      subst hk
      rw [hstep]
      simpa using hInv.tkS i k0 (by rw [hpc]; rfl)
    · exact tkS_step_of_ne t hInv hit
  case scanB =>
    intro i
    rcases eq_or_ne i t with rfl | hit
    · intro j m hsc
      rw [hstep] at hsc
      simp at hsc
    · exact scanB_step_of_ne t hInv hit
  case w1B =>
    intro i
    rcases eq_or_ne i t with rfl | hit
    · intro k o hw
      rw [hstep] at hw
      simp at hw
      omega
    · exact w1B_step_of_ne t hInv hit
  case w2B =>
    intro i
    rcases eq_or_ne i t with rfl | hit
    · intro k o hw
      rw [hstep] at hw
      simp at hw
    · exact w2B_step_of_ne t hInv hit
  case oblW =>
    intro i k o hio p hpi hpo
    rcases eq_or_ne i t with rfl | hit
    · rw [hstep] at hio
      simp at hio
      omega
    · exact oblW_step_of_ne t hInv hit hio hpi hpo
  case oblC =>
    intro i k hio p hpi
    rcases eq_or_ne i t with rfl | hit
    · rw [hstep] at hio
      simp at hio
    · exact oblC_step_of_ne t hInv hit hio hpi
  case w2S =>
    intro i k o ho hio j m hsc
    rcases eq_or_ne i t with rfl | hit
    · rw [hstep] at hio
      simp at hio
    · rcases eq_or_ne (⟨o, ho⟩ : Fin N) t with hot | hot
      · rw [hot, hstep] at hsc
        simp at hsc
      · exact w2S_step_of_ne t hInv hit ho hot hio hsc

theorem inv_step_scan_lt {N : ℕ} {s : State N} (hInv : Inv s) (t : Fin N)
    {j0 m0 : ℕ} (hpc : s.pc t = .scan j0 m0) (hj : j0 < N) : Inv (step s t) := by
  have hstep := step_scan_lt s t hpc hj
  have hft := hInv.flag t
  rw [hpc] at hft
  constructor
  case flag =>
    intro i
    rcases eq_or_ne i t with rfl | hit
    · rw [hstep]
      simpa [PC.isChoosing] using hft
    · exact flag_step_of_ne t hInv hit
  case tk0 =>
    intro i
    rcases eq_or_ne i t with rfl | hit
    · intro hnone
      rw [hstep]
      simpa using hInv.tk0 i (by rw [hpc]; rfl)
    · exact tk0_step_of_ne t hInv hit
  case tkS =>
    intro i
    rcases eq_or_ne i t with rfl | hit
    · intro k hk
      rw [hstep] at hk
      simp [PC.cTicket] at hk
    · exact tkS_step_of_ne t hInv hit
  case scanB =>
    intro i
    rcases eq_or_ne i t with rfl | hit
    · intro j m hsc
      rw [hstep] at hsc
      simp at hsc
      obtain ⟨hj1, hm1⟩ := hsc
      have hb := hInv.scanB i j0 m0 hpc
      have htb := ticket_lt_mod hInv ⟨j0, hj⟩
      constructor
      · omega
      · rw [← hm1]
        exact max_lt hb.2 htb
    · exact scanB_step_of_ne t hInv hit
  case w1B =>
    intro i
    rcases eq_or_ne i t with rfl | hit
    · intro k o hw
      rw [hstep] at hw
      simp at hw
    · exact w1B_step_of_ne t hInv hit
  case w2B =>
    intro i
    rcases eq_or_ne i t with rfl | hit
    · intro k o hw
      rw [hstep] at hw
      simp at hw
    · exact w2B_step_of_ne t hInv hit
  case oblW =>
    intro i k o hio p hpi hpo
    rcases eq_or_ne i t with rfl | hit
    · rw [hstep] at hio
      simp at hio
    · exact oblW_step_of_ne t hInv hit hio hpi hpo
  case oblC =>
    intro i k hio p hpi
    rcases eq_or_ne i t with rfl | hit
    · rw [hstep] at hio
      simp at hio
    · exact oblC_step_of_ne t hInv hit hio hpi
  case w2S =>
    intro i k o ho hio j m hsc
    rcases eq_or_ne i t with rfl | hit
    · rw [hstep] at hio
      simp at hio
    · rcases eq_or_ne (⟨o, ho⟩ : Fin N) t with hot | hot
      · rw [hot, hstep] at hsc
        simp at hsc
        obtain ⟨hj1, hm1⟩ := hsc
        rw [pc_step_ne s t i hit] at hio
        have hold := hInv.w2S i k o ho hio j0 m0 (by rw [hot]; exact hpc)
        rcases hold with hle | hkm
        · rcases eq_or_lt_of_le hle with heq | hlt
          · have hfi : (⟨j0, hj⟩ : Fin N) = i := Fin.ext heq
            have hti := hInv.tkS i k (by rw [hio]; rfl)
            right
            rw [← hm1, hfi, hti.1]
            exact le_max_right _ _
          · left
            omega
        · right
          rw [← hm1]
          exact le_trans hkm (le_max_left _ _)
      · exact w2S_step_of_ne t hInv hit ho hot hio hsc

theorem inv_step_scan_ok {N : ℕ} {s : State N} (hInv : Inv s) (t : Fin N)
    {j0 m0 : ℕ} (hpc : s.pc t = .scan j0 m0) (hj : ¬ j0 < N)
    (hm : m0 + 1 < TICKET_MOD) : Inv (step s t) := by
  have hstep := step_scan_ok s t hpc hj hm
  have hft := hInv.flag t
  rw [hpc] at hft
  constructor
  case flag =>
    intro i
    rcases eq_or_ne i t with rfl | hit
    · rw [hstep]
      simpa [PC.isChoosing] using hft
    · exact flag_step_of_ne t hInv hit
  case tk0 =>
    intro i
    rcases eq_or_ne i t with rfl | hit
    · intro hnone
      rw [hstep] at hnone
      simp [PC.cTicket] at hnone
    · exact tk0_step_of_ne t hInv hit
  case tkS =>
    intro i
    rcases eq_or_ne i t with rfl | hit
    · intro k hk
      rw [hstep] at hk
      simp [PC.cTicket] at hk
      subst hk
      rw [hstep]
      refine ⟨by simp, by omega, hm⟩
    · exact tkS_step_of_ne t hInv hit
  case scanB =>
    intro i
    rcases eq_or_ne i t with rfl | hit
    · intro j m hsc
      rw [hstep] at hsc
      simp at hsc
    · exact scanB_step_of_ne t hInv hit
  case w1B =>
    intro i
    rcases eq_or_ne i t with rfl | hit
    · intro k o hw
      rw [hstep] at hw
      simp at hw
    · exact w1B_step_of_ne t hInv hit
  case w2B =>
    intro i
    rcases eq_or_ne i t with rfl | hit
    · intro k o hw
      rw [hstep] at hw
      simp at hw
    · exact w2B_step_of_ne t hInv hit
  case oblW =>
    intro i k o hio p hpi hpo
    rcases eq_or_ne i t with rfl | hit
    · rw [hstep] at hio
      simp at hio
    · exact oblW_step_of_ne t hInv hit hio hpi hpo
  case oblC =>
    intro i k hio p hpi
    rcases eq_or_ne i t with rfl | hit
    · rw [hstep] at hio
      simp at hio
    · exact oblC_step_of_ne t hInv hit hio hpi
  case w2S =>
    intro i k o ho hio j m hsc
    rcases eq_or_ne i t with rfl | hit
    · rw [hstep] at hio
      simp at hio
    · rcases eq_or_ne (⟨o, ho⟩ : Fin N) t with hot | hot
      · rw [hot, hstep] at hsc
        simp at hsc
      · exact w2S_step_of_ne t hInv hit ho hot hio hsc

theorem inv_step_scan_overflow {N : ℕ} {s : State N} (hInv : Inv s) (t : Fin N)
    {j0 m0 : ℕ} (hpc : s.pc t = .scan j0 m0) (hj : ¬ j0 < N)
    (hm : ¬ m0 + 1 < TICKET_MOD) : Inv (step s t) := by
  have hstep := step_scan_overflow s t hpc hj hm
  constructor
  case flag =>
    intro i
    rcases eq_or_ne i t with rfl | hit
    · rw [hstep]
      simp [PC.isChoosing]
    · exact flag_step_of_ne t hInv hit
  case tk0 =>
    intro i
    rcases eq_or_ne i t with rfl | hit
    · intro hnone
      rw [hstep]
      simpa using hInv.tk0 i (by rw [hpc]; rfl)
    · exact tk0_step_of_ne t hInv hit
  case tkS =>
    intro i
    rcases eq_or_ne i t with rfl | hit
    · intro k hk
      rw [hstep] at hk
      simp [PC.cTicket] at hk
    · exact tkS_step_of_ne t hInv hit
  case scanB =>
    intro i
    rcases eq_or_ne i t with rfl | hit
    · intro j m hsc
      rw [hstep] at hsc
      simp at hsc
    · exact scanB_step_of_ne t hInv hit
  case w1B =>
    intro i
    rcases eq_or_ne i t with rfl | hit
    · intro k o hw
      rw [hstep] at hw
      simp at hw
    · exact w1B_step_of_ne t hInv hit
  case w2B =>
    intro i
    rcases eq_or_ne i t with rfl | hit
    · intro k o hw
      rw [hstep] at hw
      simp at hw
    · exact w2B_step_of_ne t hInv hit
  case oblW =>
    intro i k o hio p hpi hpo
    rcases eq_or_ne i t with rfl | hit
    · rw [hstep] at hio
      simp at hio
    · exact oblW_step_of_ne t hInv hit hio hpi hpo
  case oblC =>
    intro i k hio p hpi
    rcases eq_or_ne i t with rfl | hit
    · rw [hstep] at hio
      simp at hio
    · exact oblC_step_of_ne t hInv hit hio hpi
  case w2S =>
    intro i k o ho hio j m hsc
    rcases eq_or_ne i t with rfl | hit
    · rw [hstep] at hio
      simp at hio
    · rcases eq_or_ne (⟨o, ho⟩ : Fin N) t with hot | hot
      · rw [hot, hstep] at hsc
        simp at hsc
      · exact w2S_step_of_ne t hInv hit ho hot hio hsc

theorem inv_step_wait1_self {N : ℕ} {s : State N} (hInv : Inv s) (t : Fin N)
    {k0 o0 : ℕ} (hpc : s.pc t = .wait1 k0 o0) (ho : o0 < N)
    (hot : o0 = t.val) : Inv (step s t) := by
  have hstep := step_wait1_self s t hpc ho hot
  have hft := hInv.flag t
  rw [hpc] at hft
  constructor
  case flag =>
    intro i
    rcases eq_or_ne i t with rfl | hit
    · rw [hstep]
      simpa [PC.isChoosing] using hft
    · exact flag_step_of_ne t hInv hit
  case tk0 =>
    intro i
    rcases eq_or_ne i t with rfl | hit
    · intro hnone
      rw [hstep] at hnone
      simp [PC.cTicket] at hnone
    · exact tk0_step_of_ne t hInv hit
  case tkS =>
    intro i
    rcases eq_or_ne i t with rfl | hit
    · intro k hk
      rw [hstep] at hk
      simp [PC.cTicket] at hk
      subst hk
      rw [hstep]
      simpa using hInv.tkS i k0 (by rw [hpc]; rfl)
    · exact tkS_step_of_ne t hInv hit
  case scanB =>
    intro i
    rcases eq_or_ne i t with rfl | hit
    · intro j m hsc
      rw [hstep] at hsc
      simp at hsc
    · exact scanB_step_of_ne t hInv hit
  case w1B =>
    intro i
    rcases eq_or_ne i t with rfl | hit
    · intro k o hw
      rw [hstep] at hw
      simp at hw
      omega
    · exact w1B_step_of_ne t hInv hit
  case w2B =>
    intro i
    rcases eq_or_ne i t with rfl | hit
    · intro k o hw
      rw [hstep] at hw
      simp at hw
    · exact w2B_step_of_ne t hInv hit
  case oblW =>
    intro i k o hio p hpi hpo
    rcases eq_or_ne i t with rfl | hit
    · rw [hstep] at hio
      simp at hio
      obtain ⟨hk1, ho1⟩ := hio
      have hpv : p.val < o0 := by
        have hps : p.val < o0 + 1 := by omega
        rcases Nat.lt_succ_iff_lt_or_eq.mp hps with h | h
        · exact h
        · exact absurd (Fin.ext (by omega : p.val = i.val)) hpi
      have hA := hInv.oblW i k0 o0 (Or.inl hpc) p hpi hpv
      exact After_of_eq (pc_step_ne s i p hpi) (by rw [hstep]; simp) hA
    · exact oblW_step_of_ne t hInv hit hio hpi hpo
  case oblC =>
    intro i k hio p hpi
    rcases eq_or_ne i t with rfl | hit
    · rw [hstep] at hio
      simp at hio
    · exact oblC_step_of_ne t hInv hit hio hpi
  case w2S =>
    intro i k o ho2 hio j m hsc
    rcases eq_or_ne i t with rfl | hit
    · rw [hstep] at hio
      simp at hio
    · rcases eq_or_ne (⟨o, ho2⟩ : Fin N) t with hot2 | hot2
      · rw [hot2, hstep] at hsc
        simp at hsc
      · exact w2S_step_of_ne t hInv hit ho2 hot2 hio hsc

theorem inv_step_wait1_pass {N : ℕ} {s : State N} (hInv : Inv s) (t : Fin N)
    {k0 o0 : ℕ} (hpc : s.pc t = .wait1 k0 o0) (ho : o0 < N)
    (hot : o0 ≠ t.val) (hc : s.choosing ⟨o0, ho⟩ = false) : Inv (step s t) := by
  have hstep := step_wait1_pass s t hpc ho hot (by simp [hc])
  have hft := hInv.flag t
  rw [hpc] at hft
  constructor
  case flag =>
    intro i
    rcases eq_or_ne i t with rfl | hit
    · rw [hstep]
      simpa [PC.isChoosing] using hft
    · exact flag_step_of_ne t hInv hit
  case tk0 =>
    intro i
    rcases eq_or_ne i t with rfl | hit
    · intro hnone
      rw [hstep] at hnone
      simp [PC.cTicket] at hnone
    · exact tk0_step_of_ne t hInv hit
  case tkS =>
    intro i
    rcases eq_or_ne i t with rfl | hit
    · intro k hk
      rw [hstep] at hk
      simp [PC.cTicket] at hk
      subst hk
      rw [hstep]
      simpa using hInv.tkS i k0 (by rw [hpc]; rfl)
    · exact tkS_step_of_ne t hInv hit
  case scanB =>
    intro i
    rcases eq_or_ne i t with rfl | hit
    · intro j m hsc
      rw [hstep] at hsc
      simp at hsc
    · exact scanB_step_of_ne t hInv hit
  case w1B =>
    intro i
    rcases eq_or_ne i t with rfl | hit
    · intro k o hw
      rw [hstep] at hw
      simp at hw
    · exact w1B_step_of_ne t hInv hit
  case w2B =>
    intro i
    rcases eq_or_ne i t with rfl | hit
    · intro k o hw
      rw [hstep] at hw
      simp at hw
      omega
    · exact w2B_step_of_ne t hInv hit
  case oblW =>
    intro i k o hio p hpi hpo
    rcases eq_or_ne i t with rfl | hit
    · rw [hstep] at hio
      simp at hio
      obtain ⟨hk1, ho1⟩ := hio
      have hA := hInv.oblW i k0 o0 (Or.inl hpc) p hpi (by omega)
      exact After_of_eq (pc_step_ne s i p hpi) (by rw [hstep]; simp) hA
    · exact oblW_step_of_ne t hInv hit hio hpi hpo
  case oblC =>
    intro i k hio p hpi
    rcases eq_or_ne i t with rfl | hit
    · rw [hstep] at hio
      simp at hio
    · exact oblC_step_of_ne t hInv hit hio hpi
  case w2S =>
    intro i k o ho2 hio j m hsc
    rcases eq_or_ne i t with rfl | hit
    · rw [hstep] at hio
      simp at hio
      obtain ⟨hk1, ho1⟩ := hio
      have hc2 : s.choosing ⟨o, ho2⟩ = false := by
        have heo : (⟨o, ho2⟩ : Fin N) = ⟨o0, ho⟩ := by
          simp only [Fin.mk.injEq]
          omega
        rw [heo]
        exact hc
      have hwne : (⟨o, ho2⟩ : Fin N) ≠ i := by
        intro hh
        exact hot (by rw [ho1]; exact congrArg Fin.val hh)
      rw [pc_step_ne s i _ hwne] at hsc
      exact absurd hsc (pc_not_scan_of_not_choosing hInv hc2)
    · rcases eq_or_ne (⟨o, ho2⟩ : Fin N) t with hot2 | hot2
      · rw [hot2, hstep] at hsc
        simp at hsc
      · exact w2S_step_of_ne t hInv hit ho2 hot2 hio hsc

theorem inv_step_wait1_enter {N : ℕ} {s : State N} (hInv : Inv s) (t : Fin N)
    {k0 o0 : ℕ} (hpc : s.pc t = .wait1 k0 o0) (ho : ¬ o0 < N) :
    Inv (step s t) := by
  have hstep := step_wait1_enter s t hpc ho
  have hft := hInv.flag t
  rw [hpc] at hft
  constructor
  case flag =>
    intro i
    rcases eq_or_ne i t with rfl | hit
    · rw [hstep]
      simpa [PC.isChoosing] using hft
    · exact flag_step_of_ne t hInv hit
  case tk0 =>
    intro i
    rcases eq_or_ne i t with rfl | hit
    · intro hnone
      rw [hstep] at hnone
      simp [PC.cTicket] at hnone
    · exact tk0_step_of_ne t hInv hit
  case tkS =>
    intro i
    rcases eq_or_ne i t with rfl | hit
    · intro k hk
      rw [hstep] at hk
      simp [PC.cTicket] at hk
      subst hk
      rw [hstep]
      simpa using hInv.tkS i k0 (by rw [hpc]; rfl)
    · exact tkS_step_of_ne t hInv hit
  case scanB =>
    intro i
    rcases eq_or_ne i t with rfl | hit
    · intro j m hsc
      rw [hstep] at hsc
      simp at hsc
    · exact scanB_step_of_ne t hInv hit
  case w1B =>
    intro i
    rcases eq_or_ne i t with rfl | hit
    · intro k o hw
      rw [hstep] at hw
      simp at hw
    · exact w1B_step_of_ne t hInv hit
  case w2B =>
    intro i
    rcases eq_or_ne i t with rfl | hit
    · intro k o hw
      rw [hstep] at hw
      simp at hw
    · exact w2B_step_of_ne t hInv hit
  case oblW =>
    intro i k o hio p hpi hpo
    rcases eq_or_ne i t with rfl | hit
    · rw [hstep] at hio
      simp at hio
    · exact oblW_step_of_ne t hInv hit hio hpi hpo
  case oblC =>
    intro i k hio p hpi
    rcases eq_or_ne i t with rfl | hit
    · have hA := hInv.oblW i k0 o0 (Or.inl hpc) p hpi
        (lt_of_lt_of_le p.isLt (le_of_not_lt ho))
      exact After_of_eq (pc_step_ne s i p hpi) (by rw [hstep]; simp) hA
    · exact oblC_step_of_ne t hInv hit hio hpi
  case w2S =>
    intro i k o ho2 hio j m hsc
    rcases eq_or_ne i t with rfl | hit
    · rw [hstep] at hio
      simp at hio
    · rcases eq_or_ne (⟨o, ho2⟩ : Fin N) t with hot2 | hot2
      · rw [hot2, hstep] at hsc
        simp at hsc
      · exact w2S_step_of_ne t hInv hit ho2 hot2 hio hsc

theorem inv_step_wait2_pass {N : ℕ} {s : State N} (hInv : Inv s) (t : Fin N)
    {k0 o0 : ℕ} (hpc : s.pc t = .wait2 k0 o0) (ho : o0 < N)
    (hcond : s.ticket ⟨o0, ho⟩ = 0 ∨ lexLt k0 t.val (s.ticket ⟨o0, ho⟩) o0) :
    Inv (step s t) := by
  have hstep := step_wait2_pass s t hpc ho hcond
  have hft := hInv.flag t
  rw [hpc] at hft
  constructor
  case flag =>
    intro i
    rcases eq_or_ne i t with rfl | hit
    · rw [hstep]
      simpa [PC.isChoosing] using hft
    · exact flag_step_of_ne t hInv hit
  case tk0 =>
    intro i
    rcases eq_or_ne i t with rfl | hit
    · intro hnone
      rw [hstep] at hnone
      simp [PC.cTicket] at hnone
    · exact tk0_step_of_ne t hInv hit
  case tkS =>
    intro i
    rcases eq_or_ne i t with rfl | hit
    · intro k hk
      rw [hstep] at hk
      simp [PC.cTicket] at hk
      subst hk
      rw [hstep]
      simpa using hInv.tkS i k0 (by rw [hpc]; rfl)
    · exact tkS_step_of_ne t hInv hit
  case scanB =>
    intro i
    rcases eq_or_ne i t with rfl | hit
    · intro j m hsc
      rw [hstep] at hsc
      simp at hsc
    · exact scanB_step_of_ne t hInv hit
  case w1B =>
    intro i
    rcases eq_or_ne i t with rfl | hit
    · intro k o hw
      rw [hstep] at hw
      simp at hw
      omega
    · exact w1B_step_of_ne t hInv hit
  case w2B =>
    intro i
    rcases eq_or_ne i t with rfl | hit
    · intro k o hw
      rw [hstep] at hw
      simp at hw
    · exact w2B_step_of_ne t hInv hit
  case oblW =>
    intro i k o hio p hpi hpo
    rcases eq_or_ne i t with rfl | hit
    · rw [hstep] at hio
      simp at hio
      obtain ⟨hk1, ho1⟩ := hio
      have hps : p.val < o0 ∨ p.val = o0 := by omega
      rcases hps with hpv | hpv
      · have hA := hInv.oblW i k0 o0 (Or.inr hpc) p hpi hpv
        exact After_of_eq (pc_step_ne s i p hpi) (by rw [hstep]; simp) hA
      · have hp : p = ⟨o0, ho⟩ := Fin.ext hpv
        subst hp
        have hA := After_new hInv hpc ho hcond
        exact After_of_eq (pc_step_ne s i _ hpi) (by rw [hstep]; simp) hA
    · exact oblW_step_of_ne t hInv hit hio hpi hpo
  case oblC =>
    intro i k hio p hpi
    rcases eq_or_ne i t with rfl | hit
    · rw [hstep] at hio
      simp at hio
    · exact oblC_step_of_ne t hInv hit hio hpi
  case w2S =>
    intro i k o ho2 hio j m hsc
    rcases eq_or_ne i t with rfl | hit
    · rw [hstep] at hio
      simp at hio
    · rcases eq_or_ne (⟨o, ho2⟩ : Fin N) t with hot2 | hot2
      · rw [hot2, hstep] at hsc
        simp at hsc
      · exact w2S_step_of_ne t hInv hit ho2 hot2 hio hsc

theorem inv_step_crit {N : ℕ} {s : State N} (hInv : Inv s) (t : Fin N)
    {k0 : ℕ} (hpc : s.pc t = .crit k0) : Inv (step s t) := by
  have hstep := step_crit s t hpc
  have hft := hInv.flag t
  rw [hpc] at hft
  constructor
  case flag =>
    intro i
    rcases eq_or_ne i t with rfl | hit
    · rw [hstep]
      simpa [PC.isChoosing] using hft
    · exact flag_step_of_ne t hInv hit
  case tk0 =>
    intro i
    rcases eq_or_ne i t with rfl | hit
    · intro hnone
      rw [hstep]
      simp
    · exact tk0_step_of_ne t hInv hit
  case tkS =>
    intro i
    rcases eq_or_ne i t with rfl | hit
    · intro k hk
      rw [hstep] at hk
      simp [PC.cTicket] at hk
    · exact tkS_step_of_ne t hInv hit
  case scanB =>
    intro i
    rcases eq_or_ne i t with rfl | hit
    · intro j m hsc
      rw [hstep] at hsc
      simp at hsc
    · exact scanB_step_of_ne t hInv hit
  case w1B =>
    intro i
    rcases eq_or_ne i t with rfl | hit
    · intro k o hw
      rw [hstep] at hw
      simp at hw
    · exact w1B_step_of_ne t hInv hit
  case w2B =>
    intro i
    rcases eq_or_ne i t with rfl | hit
    · intro k o hw
      rw [hstep] at hw
      simp at hw
    · exact w2B_step_of_ne t hInv hit
  case oblW =>
    intro i k o hio p hpi hpo
    rcases eq_or_ne i t with rfl | hit
    · rw [hstep] at hio
      simp at hio
    · exact oblW_step_of_ne t hInv hit hio hpi hpo
  case oblC =>
    intro i k hio p hpi
    rcases eq_or_ne i t with rfl | hit
    · rw [hstep] at hio
      simp at hio
    · exact oblC_step_of_ne t hInv hit hio hpi
  case w2S =>
    intro i k o ho2 hio j m hsc
    rcases eq_or_ne i t with rfl | hit
    · rw [hstep] at hio
      simp at hio
    · rcases eq_or_ne (⟨o, ho2⟩ : Fin N) t with hot2 | hot2
      · rw [hot2, hstep] at hsc
        simp at hsc
      · exact w2S_step_of_ne t hInv hit ho2 hot2 hio hsc

/-- The invariant is preserved by every transition of every thread. -/
theorem inv_step {N : ℕ} {s : State N} (hInv : Inv s) (t : Fin N) :
    Inv (step s t) := by
  cases hpc : s.pc t with
  | ncs => exact inv_step_ncs hInv t hpc
  | chooseStart => exact inv_step_chooseStart hInv t hpc
  | scan j m =>
      by_cases hj : j < N
      · exact inv_step_scan_lt hInv t hpc hj
      · by_cases hm : m + 1 < TICKET_MOD
        · exact inv_step_scan_ok hInv t hpc hj hm
        · exact inv_step_scan_overflow hInv t hpc hj hm
  | clearChoosing k => exact inv_step_clearChoosing hInv t hpc
  | wait1 k o =>
      by_cases ho : o < N
      · by_cases hot : o = t.val
        · exact inv_step_wait1_self hInv t hpc ho hot
        · by_cases hc : s.choosing ⟨o, ho⟩ = true
          · rw [step_wait1_spin s t hpc ho hot hc]
            exact hInv
          · exact inv_step_wait1_pass hInv t hpc ho hot (by simpa using hc)
      · exact inv_step_wait1_enter hInv t hpc ho
  | wait2 k o =>
      by_cases ho : o < N
      · by_cases hcond : s.ticket ⟨o, ho⟩ = 0 ∨ lexLt k t.val (s.ticket ⟨o, ho⟩) o
        · exact inv_step_wait2_pass hInv t hpc ho hcond
        · rw [step_wait2_spin s t hpc ho hcond]
          exact hInv
      · rw [step_wait2_oob s t hpc ho]
        exact hInv
  | crit k => exact inv_step_crit hInv t hpc

/-- The fresh lock satisfies the invariant. -/
theorem inv_init (N : ℕ) : Inv (initState N) := by
  constructor
  case flag => intro i; rfl
  case tk0 => intro i _; rfl
  case tkS => intro i k hk; simp [initState, PC.cTicket] at hk
  case scanB => intro i j m h; simp [initState] at h
  case w1B => intro i k o h; simp [initState] at h
  case w2B => intro i k o h; simp [initState] at h
  case oblW =>
    intro i k o h
    rcases h with h | h <;> simp [initState] at h
  case oblC => intro i k h; simp [initState] at h
  case w2S => intro i k o ho h; simp [initState] at h

/-- Every reachable state of the lock satisfies the inductive invariant. -/
theorem inv_reachable {N : ℕ} {s : State N} (hs : Reachable s) : Inv s := by
  induction hs with
  | init => exact inv_init N
  | step t _ ih => exact inv_step ih t

theorem isCrit_iff (p : PC) : p.isCrit = true ↔ ∃ k, p = .crit k := by
  cases p <;> simp [PC.isCrit]

/-! ## Claims C1 and C4 -/

/-- C1: mutual exclusion: for every `N ≥ 1` (every `N`, in fact), every pair
of distinct thread identities `a ≠ b` and every interleaving of the threads'
transitions from the fresh lock, the critical sections never overlap: in no
reachable state are both `a` and `b` between the return of `lock` and the
store of `unlock`. -/
theorem mutual_exclusion {N : ℕ} (s : State N) (hs : Reachable s) (a b : Fin N)
    (hab : a ≠ b) (ha : (s.pc a).isCrit = true) : (s.pc b).isCrit = false := by
  have hInv := inv_reachable hs
  by_contra hb
  rw [Bool.not_eq_false] at hb
  obtain ⟨ka, hka⟩ := (isCrit_iff _).mp ha
  obtain ⟨kb, hkb⟩ := (isCrit_iff _).mp hb
  obtain ⟨-, hA2⟩ := hInv.oblC a ka hka b (Ne.symm hab)
  rw [hkb] at hA2
  simpa only [afterPC] using hA2

/-- Witness for C1: a concrete reachable two-thread state in which thread 0
holds the lock, and thread 1 accordingly does not. -/
theorem mutual_exclusion_witness :
    (demoAcquired.pc 0).isCrit = true ∧ (demoAcquired.pc 1).isCrit = false :=
  ⟨by decide,
   mutual_exclusion demoAcquired (reachable_run Reachable.init 0 10) 0 1
     (by decide) (by decide)⟩

/-- C4 as stated is false on the code: in the window after
`choosing[i].store(true)` but before the ticket store, thread `i` is choosing
a ticket while `ticket[i]` is still `0`, so `ticket[i] = 0` does not imply
that `i` is "neither choosing nor holding nor waiting".  Concretely, two
transitions of thread 0 from a fresh one-thread lock reach such a state. -/
theorem ticket_zero_iff_counterexample :
    ¬ (∀ (N : ℕ) (s : State N), Reachable s → ∀ i : Fin N,
        (s.ticket i = 0 ↔
          ¬ ((s.pc i).isChoosing = true ∨ (s.pc i).isWaiting = true ∨
             (s.pc i).isCrit = true))) := by
  intro h
  have h2 := (h 1 demoChoosing (reachable_run Reachable.init 0 2) 0).mp (by decide)
  exact h2 (Or.inl (by decide))

/-- C4, amended: in every reachable state, `ticket[i] = 0` holds if and only
if thread `i` currently has no committed ticket — it is neither waiting, nor
holding, nor in the tail of the choosing phase after its ticket store; in the
choosing window before the ticket store (and when idle), `ticket[i]` is `0`.
Moreover a committed ticket is exactly what `ticket[i]` holds, and it is
positive. -/
theorem ticket_zero_iff_not_committed {N : ℕ} (s : State N) (hs : Reachable s)
    (i : Fin N) :
    (s.ticket i = 0 ↔ (s.pc i).cTicket = none) ∧
    (∀ k, (s.pc i).cTicket = some k → s.ticket i = k ∧ 0 < k) := by
  have hInv := inv_reachable hs
  constructor
  · constructor
    · intro h0
      cases hc : (s.pc i).cTicket with
      | none => rfl
      | some k =>
          obtain ⟨h1, h2, -⟩ := hInv.tkS i k hc
          rw [h1] at h0
          omega
    · intro hn
      exact hInv.tk0 i hn
  · intro k hk
    obtain ⟨h1, h2, -⟩ := hInv.tkS i k hk
    exact ⟨h1, h2⟩

/-- Witness for the amended C4 at a concrete reachable state. -/
theorem ticket_zero_iff_not_committed_witness :
    (initState 1).ticket 0 = 0 ↔ ((initState 1).pc 0).cTicket = none :=
  (ticket_zero_iff_not_committed (initState 1) Reachable.init 0).1

/-! ## Claim C5: eventual entry

The tools below construct a fair schedule for three threads under which
thread 0 never acquires the lock: threads 1 and 2 climb the ticket value to
`u32::MAX` by handing the lock to each other, and thread 0's ticket scans are
timed to always observe the maximal ticket, so it always takes the overflow
path and retries.  This refutes unconditional eventual entry.  Eventual entry
is then proved in the amended form: under a fair scheduler it holds whenever
the overflow branch is never taken. -/

theorem State.ext' {N : ℕ} {s1 s2 : State N}
    (hc : ∀ u, s1.choosing u = s2.choosing u)
    (ht : ∀ u, s1.ticket u = s2.ticket u)
    (hp : ∀ u, s1.pc u = s2.pc u) : s1 = s2 := by
  cases s1
  cases s2
  simp only [State.mk.injEq]
  exact ⟨funext hc, funext ht, funext hp⟩

theorem f3_mk0 (h : (0:ℕ) < 3) : (⟨0, h⟩ : Fin 3) = 0 := rfl

theorem f3_mk1 (h : (1:ℕ) < 3) : (⟨1, h⟩ : Fin 3) = 1 := rfl

theorem f3_mk2 (h : (2:ℕ) < 3) : (⟨2, h⟩ : Fin 3) = 2 := rfl

theorem choosing_mk3_0 (c0 c1 c2 : Bool) (t0 t1 t2 : ℕ) (p0 p1 p2 : PC) :
    (mk3 c0 c1 c2 t0 t1 t2 p0 p1 p2).choosing 0 = c0 := rfl

theorem choosing_mk3_1 (c0 c1 c2 : Bool) (t0 t1 t2 : ℕ) (p0 p1 p2 : PC) :
    (mk3 c0 c1 c2 t0 t1 t2 p0 p1 p2).choosing 1 = c1 := rfl

theorem choosing_mk3_2 (c0 c1 c2 : Bool) (t0 t1 t2 : ℕ) (p0 p1 p2 : PC) :
    (mk3 c0 c1 c2 t0 t1 t2 p0 p1 p2).choosing 2 = c2 := rfl

theorem ticket_mk3_0 (c0 c1 c2 : Bool) (t0 t1 t2 : ℕ) (p0 p1 p2 : PC) :
    (mk3 c0 c1 c2 t0 t1 t2 p0 p1 p2).ticket 0 = t0 := rfl

theorem ticket_mk3_1 (c0 c1 c2 : Bool) (t0 t1 t2 : ℕ) (p0 p1 p2 : PC) :
    (mk3 c0 c1 c2 t0 t1 t2 p0 p1 p2).ticket 1 = t1 := rfl

theorem ticket_mk3_2 (c0 c1 c2 : Bool) (t0 t1 t2 : ℕ) (p0 p1 p2 : PC) :
    (mk3 c0 c1 c2 t0 t1 t2 p0 p1 p2).ticket 2 = t2 := rfl

theorem pc_mk3_0 (c0 c1 c2 : Bool) (t0 t1 t2 : ℕ) (p0 p1 p2 : PC) :
    (mk3 c0 c1 c2 t0 t1 t2 p0 p1 p2).pc 0 = p0 := rfl

theorem pc_mk3_1 (c0 c1 c2 : Bool) (t0 t1 t2 : ℕ) (p0 p1 p2 : PC) :
    (mk3 c0 c1 c2 t0 t1 t2 p0 p1 p2).pc 1 = p1 := rfl

theorem pc_mk3_2 (c0 c1 c2 : Bool) (t0 t1 t2 : ℕ) (p0 p1 p2 : PC) :
    (mk3 c0 c1 c2 t0 t1 t2 p0 p1 p2).pc 2 = p2 := rfl

theorem setPc_mk3_0 (c0 c1 c2 : Bool) (t0 t1 t2 : ℕ) (p0 p1 p2 p : PC) :
    setPc (mk3 c0 c1 c2 t0 t1 t2 p0 p1 p2) 0 p = mk3 c0 c1 c2 t0 t1 t2 p p1 p2 := by
  apply State.ext' <;> (intro u; fin_cases u) <;> rfl

theorem setPc_mk3_1 (c0 c1 c2 : Bool) (t0 t1 t2 : ℕ) (p0 p1 p2 p : PC) :
    setPc (mk3 c0 c1 c2 t0 t1 t2 p0 p1 p2) 1 p = mk3 c0 c1 c2 t0 t1 t2 p0 p p2 := by
  apply State.ext' <;> (intro u; fin_cases u) <;> rfl

theorem setPc_mk3_2 (c0 c1 c2 : Bool) (t0 t1 t2 : ℕ) (p0 p1 p2 p : PC) :
    setPc (mk3 c0 c1 c2 t0 t1 t2 p0 p1 p2) 2 p = mk3 c0 c1 c2 t0 t1 t2 p0 p1 p := by
  apply State.ext' <;> (intro u; fin_cases u) <;> rfl

theorem setChoosing_mk3_0 (c0 c1 c2 b : Bool) (t0 t1 t2 : ℕ) (p0 p1 p2 : PC) :
    setChoosing (mk3 c0 c1 c2 t0 t1 t2 p0 p1 p2) 0 b = mk3 b c1 c2 t0 t1 t2 p0 p1 p2 := by
  apply State.ext' <;> (intro u; fin_cases u) <;> rfl

theorem setChoosing_mk3_1 (c0 c1 c2 b : Bool) (t0 t1 t2 : ℕ) (p0 p1 p2 : PC) :
    setChoosing (mk3 c0 c1 c2 t0 t1 t2 p0 p1 p2) 1 b = mk3 c0 b c2 t0 t1 t2 p0 p1 p2 := by
  apply State.ext' <;> (intro u; fin_cases u) <;> rfl

theorem setChoosing_mk3_2 (c0 c1 c2 b : Bool) (t0 t1 t2 : ℕ) (p0 p1 p2 : PC) :
    setChoosing (mk3 c0 c1 c2 t0 t1 t2 p0 p1 p2) 2 b = mk3 c0 c1 b t0 t1 t2 p0 p1 p2 := by
  apply State.ext' <;> (intro u; fin_cases u) <;> rfl

theorem setTicket_mk3_0 (c0 c1 c2 : Bool) (t0 t1 t2 k : ℕ) (p0 p1 p2 : PC) :
    setTicket (mk3 c0 c1 c2 t0 t1 t2 p0 p1 p2) 0 k = mk3 c0 c1 c2 k t1 t2 p0 p1 p2 := by
  apply State.ext' <;> (intro u; fin_cases u) <;> rfl

theorem setTicket_mk3_1 (c0 c1 c2 : Bool) (t0 t1 t2 k : ℕ) (p0 p1 p2 : PC) :
    setTicket (mk3 c0 c1 c2 t0 t1 t2 p0 p1 p2) 1 k = mk3 c0 c1 c2 t0 k t2 p0 p1 p2 := by
  apply State.ext' <;> (intro u; fin_cases u) <;> rfl

theorem setTicket_mk3_2 (c0 c1 c2 : Bool) (t0 t1 t2 k : ℕ) (p0 p1 p2 : PC) :
    setTicket (mk3 c0 c1 c2 t0 t1 t2 p0 p1 p2) 2 k = mk3 c0 c1 c2 t0 t1 k p0 p1 p2 := by
  apply State.ext' <;> (intro u; fin_cases u) <;> rfl

/-- One `c12` cycle: thread 2 runs `lock` to completion while thread 1 holds
ticket `k` and unlocks mid-way; the held ticket climbs to `k + 1`. -/
theorem cyc12_spec (k : ℕ) (hk2 : k + 1 < TICKET_MOD) :
    applyList (ladd1 k) c12 = ladd2 (k + 1) := by
  have h1 : step (ladd1 k) 2
      = mk3 false false false 0 k 0 .chooseStart (.crit k) .chooseStart := by
    rw [step_ncs _ 2 (by rfl), ladd1, setPc_mk3_2]
  have h2 : step (mk3 false false false 0 k 0 .chooseStart (.crit k) .chooseStart) 2
      = mk3 false false true 0 k 0 .chooseStart (.crit k) (.scan 0 0) := by
    rw [step_chooseStart _ 2 (by rfl), setChoosing_mk3_2, setPc_mk3_2]
  have h3 : step (mk3 false false true 0 k 0 .chooseStart (.crit k) (.scan 0 0)) 2
      = mk3 false false true 0 k 0 .chooseStart (.crit k) (.scan 1 0) := by
    rw [step_scan_lt _ 2 (by rfl) (by omega), f3_mk0, ticket_mk3_0, setPc_mk3_2]
    norm_num
  have h4 : step (mk3 false false true 0 k 0 .chooseStart (.crit k) (.scan 1 0)) 2
      = mk3 false false true 0 k 0 .chooseStart (.crit k) (.scan 2 k) := by
    rw [step_scan_lt _ 2 (by rfl) (by omega), f3_mk1, ticket_mk3_1, setPc_mk3_2]
    norm_num
  have h5 : step (mk3 false false true 0 k 0 .chooseStart (.crit k) (.scan 2 k)) 2
      = mk3 false false true 0 k 0 .chooseStart (.crit k) (.scan 3 k) := by
    rw [step_scan_lt _ 2 (by rfl) (by omega), f3_mk2, ticket_mk3_2, setPc_mk3_2]
    norm_num
  have h6 : step (mk3 false false true 0 k 0 .chooseStart (.crit k) (.scan 3 k)) 2
      = mk3 false false true 0 k (k + 1) .chooseStart (.crit k) (.clearChoosing (k + 1)) := by
    rw [step_scan_ok _ 2 (by rfl) (by omega) hk2, setTicket_mk3_2, setPc_mk3_2]
  have h7 : step (mk3 false false true 0 k (k + 1) .chooseStart (.crit k)
        (.clearChoosing (k + 1))) 2
      = mk3 false false false 0 k (k + 1) .chooseStart (.crit k) (.wait1 (k + 1) 0) := by
    rw [step_clearChoosing _ 2 (by rfl), setChoosing_mk3_2, setPc_mk3_2]
  have h8 : step (mk3 false false false 0 k (k + 1) .chooseStart (.crit k)
        (.wait1 (k + 1) 0)) 2
      = mk3 false false false 0 k (k + 1) .chooseStart (.crit k) (.wait2 (k + 1) 0) := by
    rw [step_wait1_pass _ 2 (by rfl) (by omega) (by decide)
      (by rw [f3_mk0, choosing_mk3_0]; exact Bool.false_ne_true), setPc_mk3_2]
  have h9 : step (mk3 false false false 0 k (k + 1) .chooseStart (.crit k)
        (.wait2 (k + 1) 0)) 2
      = mk3 false false false 0 k (k + 1) .chooseStart (.crit k) (.wait1 (k + 1) 1) := by
    rw [step_wait2_pass _ 2 (by rfl) (by omega) (Or.inl (by rw [f3_mk0]; rfl)),
      setPc_mk3_2]
  have h10 : step (mk3 false false false 0 k (k + 1) .chooseStart (.crit k)
        (.wait1 (k + 1) 1)) 2
      = mk3 false false false 0 k (k + 1) .chooseStart (.crit k) (.wait2 (k + 1) 1) := by
    rw [step_wait1_pass _ 2 (by rfl) (by omega) (by decide)
      (by rw [f3_mk1, choosing_mk3_1]; exact Bool.false_ne_true), setPc_mk3_2]
  have h11 : step (mk3 false false false 0 k (k + 1) .chooseStart (.crit k)
        (.wait2 (k + 1) 1)) 1
      = mk3 false false false 0 0 (k + 1) .chooseStart .ncs (.wait2 (k + 1) 1) := by
    rw [step_crit _ 1 (by rfl), setTicket_mk3_1, setPc_mk3_1]
  have h12 : step (mk3 false false false 0 0 (k + 1) .chooseStart .ncs
        (.wait2 (k + 1) 1)) 2
      = mk3 false false false 0 0 (k + 1) .chooseStart .ncs (.wait1 (k + 1) 2) := by
    rw [step_wait2_pass _ 2 (by rfl) (by omega) (Or.inl (by rw [f3_mk1]; rfl)),
      setPc_mk3_2]
  have h13 : step (mk3 false false false 0 0 (k + 1) .chooseStart .ncs
        (.wait1 (k + 1) 2)) 2
      = mk3 false false false 0 0 (k + 1) .chooseStart .ncs (.wait1 (k + 1) 3) := by
    rw [step_wait1_self _ 2 (by rfl) (by omega) (by decide), setPc_mk3_2]
  have h14 : step (mk3 false false false 0 0 (k + 1) .chooseStart .ncs
        (.wait1 (k + 1) 3)) 2
      = mk3 false false false 0 0 (k + 1) .chooseStart .ncs (.crit (k + 1)) := by
    rw [step_wait1_enter _ 2 (by rfl) (by omega), setPc_mk3_2]
  rw [applyList, c12]
  simp only [List.foldl]
  rw [h1, h2, h3, h4, h5, h6, h7, h8, h9, h10, h11, h12, h13, h14]
  rfl

/-- The symmetric `c21` cycle: thread 1 takes the ticket to `k + 1` while
thread 2 holds `k` and unlocks mid-way. -/
theorem cyc21_spec (k : ℕ) (hk2 : k + 1 < TICKET_MOD) :
    applyList (ladd2 k) c21 = ladd1 (k + 1) := by
  have h1 : step (ladd2 k) 1
      = mk3 false false false 0 0 k .chooseStart .chooseStart (.crit k) := by
    rw [step_ncs _ 1 (by rfl), ladd2, setPc_mk3_1]
  have h2 : step (mk3 false false false 0 0 k .chooseStart .chooseStart (.crit k)) 1
      = mk3 false true false 0 0 k .chooseStart (.scan 0 0) (.crit k) := by
    rw [step_chooseStart _ 1 (by rfl), setChoosing_mk3_1, setPc_mk3_1]
  have h3 : step (mk3 false true false 0 0 k .chooseStart (.scan 0 0) (.crit k)) 1
      = mk3 false true false 0 0 k .chooseStart (.scan 1 0) (.crit k) := by
    rw [step_scan_lt _ 1 (by rfl) (by omega), f3_mk0, ticket_mk3_0, setPc_mk3_1]
    norm_num
  have h4 : step (mk3 false true false 0 0 k .chooseStart (.scan 1 0) (.crit k)) 1
      = mk3 false true false 0 0 k .chooseStart (.scan 2 0) (.crit k) := by
    rw [step_scan_lt _ 1 (by rfl) (by omega), f3_mk1, ticket_mk3_1, setPc_mk3_1]
    norm_num
  have h5 : step (mk3 false true false 0 0 k .chooseStart (.scan 2 0) (.crit k)) 1
      = mk3 false true false 0 0 k .chooseStart (.scan 3 k) (.crit k) := by
    rw [step_scan_lt _ 1 (by rfl) (by omega), f3_mk2, ticket_mk3_2, setPc_mk3_1]
    norm_num
  have h6 : step (mk3 false true false 0 0 k .chooseStart (.scan 3 k) (.crit k)) 1
      = mk3 false true false 0 (k + 1) k .chooseStart (.clearChoosing (k + 1)) (.crit k) := by
    rw [step_scan_ok _ 1 (by rfl) (by omega) hk2, setTicket_mk3_1, setPc_mk3_1]
  have h7 : step (mk3 false true false 0 (k + 1) k .chooseStart
        (.clearChoosing (k + 1)) (.crit k)) 1
      = mk3 false false false 0 (k + 1) k .chooseStart (.wait1 (k + 1) 0) (.crit k) := by
    rw [step_clearChoosing _ 1 (by rfl), setChoosing_mk3_1, setPc_mk3_1]
  have h8 : step (mk3 false false false 0 (k + 1) k .chooseStart
        (.wait1 (k + 1) 0) (.crit k)) 1
      = mk3 false false false 0 (k + 1) k .chooseStart (.wait2 (k + 1) 0) (.crit k) := by
    rw [step_wait1_pass _ 1 (by rfl) (by omega) (by decide)
      (by rw [f3_mk0, choosing_mk3_0]; exact Bool.false_ne_true), setPc_mk3_1]
  have h9 : step (mk3 false false false 0 (k + 1) k .chooseStart
        (.wait2 (k + 1) 0) (.crit k)) 1
      = mk3 false false false 0 (k + 1) k .chooseStart (.wait1 (k + 1) 1) (.crit k) := by
    rw [step_wait2_pass _ 1 (by rfl) (by omega) (Or.inl (by rw [f3_mk0]; rfl)),
      setPc_mk3_1]
  have h10 : step (mk3 false false false 0 (k + 1) k .chooseStart
        (.wait1 (k + 1) 1) (.crit k)) 1
      = mk3 false false false 0 (k + 1) k .chooseStart (.wait1 (k + 1) 2) (.crit k) := by
    rw [step_wait1_self _ 1 (by rfl) (by omega) (by decide), setPc_mk3_1]
  have h11 : step (mk3 false false false 0 (k + 1) k .chooseStart
        (.wait1 (k + 1) 2) (.crit k)) 1
      = mk3 false false false 0 (k + 1) k .chooseStart (.wait2 (k + 1) 2) (.crit k) := by
    rw [step_wait1_pass _ 1 (by rfl) (by omega) (by decide)
      (by rw [f3_mk2, choosing_mk3_2]; exact Bool.false_ne_true), setPc_mk3_1]
  have h12 : step (mk3 false false false 0 (k + 1) k .chooseStart
        (.wait2 (k + 1) 2) (.crit k)) 2
      = mk3 false false false 0 (k + 1) 0 .chooseStart (.wait2 (k + 1) 2) .ncs := by
    rw [step_crit _ 2 (by rfl), setTicket_mk3_2, setPc_mk3_2]
  have h13 : step (mk3 false false false 0 (k + 1) 0 .chooseStart
        (.wait2 (k + 1) 2) .ncs) 1
      = mk3 false false false 0 (k + 1) 0 .chooseStart (.wait1 (k + 1) 3) .ncs := by
    rw [step_wait2_pass _ 1 (by rfl) (by omega) (Or.inl (by rw [f3_mk2]; rfl)),
      setPc_mk3_1]
  have h14 : step (mk3 false false false 0 (k + 1) 0 .chooseStart
        (.wait1 (k + 1) 3) .ncs) 1
      = mk3 false false false 0 (k + 1) 0 .chooseStart (.crit (k + 1)) .ncs := by
    rw [step_wait1_enter _ 1 (by rfl) (by omega), setPc_mk3_1]
  rw [applyList, c21]
  simp only [List.foldl]
  rw [h1, h2, h3, h4, h5, h6, h7, h8, h9, h10, h11, h12, h13, h14]
  rfl

theorem applyList_append {N : ℕ} (s : State N) (l1 l2 : List (Fin N)) :
    applyList s (l1 ++ l2) = applyList (applyList s l1) l2 := by
  simp [applyList, List.foldl_append]

theorem applyList_nil {N : ℕ} (s : State N) : applyList s [] = s := rfl

/-- Thread 0 calling `lock` is the first transition from the fresh lock. -/
theorem bstate_eq : step (initState 3) 0 = bstate := by
  rw [step_ncs _ 0 (by rfl)]
  apply State.ext' <;> (intro u; fin_cases u) <;> rfl

/-- Thread 1 acquires the fresh lock with ticket 1 in 13 steps. -/
theorem base13_spec : applyList bstate base13 = ladd1 1 := by
  have h1 : step bstate 1
      = mk3 false false false 0 0 0 .chooseStart .chooseStart .ncs := by
    rw [step_ncs _ 1 (by rfl), bstate, setPc_mk3_1]
  have h2 : step (mk3 false false false 0 0 0 .chooseStart .chooseStart .ncs) 1
      = mk3 false true false 0 0 0 .chooseStart (.scan 0 0) .ncs := by
    rw [step_chooseStart _ 1 (by rfl), setChoosing_mk3_1, setPc_mk3_1]
  have h3 : step (mk3 false true false 0 0 0 .chooseStart (.scan 0 0) .ncs) 1
      = mk3 false true false 0 0 0 .chooseStart (.scan 1 0) .ncs := by
    rw [step_scan_lt _ 1 (by rfl) (by omega), f3_mk0, ticket_mk3_0, setPc_mk3_1]
    norm_num
  have h4 : step (mk3 false true false 0 0 0 .chooseStart (.scan 1 0) .ncs) 1
      = mk3 false true false 0 0 0 .chooseStart (.scan 2 0) .ncs := by
    rw [step_scan_lt _ 1 (by rfl) (by omega), f3_mk1, ticket_mk3_1, setPc_mk3_1]
    norm_num
  have h5 : step (mk3 false true false 0 0 0 .chooseStart (.scan 2 0) .ncs) 1
      = mk3 false true false 0 0 0 .chooseStart (.scan 3 0) .ncs := by
    rw [step_scan_lt _ 1 (by rfl) (by omega), f3_mk2, ticket_mk3_2, setPc_mk3_1]
    norm_num
  have h6 : step (mk3 false true false 0 0 0 .chooseStart (.scan 3 0) .ncs) 1
      = mk3 false true false 0 1 0 .chooseStart (.clearChoosing 1) .ncs := by
    rw [step_scan_ok _ 1 (by rfl) (by omega) (by decide), setTicket_mk3_1, setPc_mk3_1]
  have h7 : step (mk3 false true false 0 1 0 .chooseStart (.clearChoosing 1) .ncs) 1
      = mk3 false false false 0 1 0 .chooseStart (.wait1 1 0) .ncs := by
    rw [step_clearChoosing _ 1 (by rfl), setChoosing_mk3_1, setPc_mk3_1]
  have h8 : step (mk3 false false false 0 1 0 .chooseStart (.wait1 1 0) .ncs) 1
      = mk3 false false false 0 1 0 .chooseStart (.wait2 1 0) .ncs := by
    rw [step_wait1_pass _ 1 (by rfl) (by omega) (by decide)
      (by rw [f3_mk0, choosing_mk3_0]; exact Bool.false_ne_true), setPc_mk3_1]
  have h9 : step (mk3 false false false 0 1 0 .chooseStart (.wait2 1 0) .ncs) 1
      = mk3 false false false 0 1 0 .chooseStart (.wait1 1 1) .ncs := by
    rw [step_wait2_pass _ 1 (by rfl) (by omega) (Or.inl (by rw [f3_mk0]; rfl)),
      setPc_mk3_1]
  have h10 : step (mk3 false false false 0 1 0 .chooseStart (.wait1 1 1) .ncs) 1
      = mk3 false false false 0 1 0 .chooseStart (.wait1 1 2) .ncs := by
    rw [step_wait1_self _ 1 (by rfl) (by omega) (by decide), setPc_mk3_1]
  have h11 : step (mk3 false false false 0 1 0 .chooseStart (.wait1 1 2) .ncs) 1
      = mk3 false false false 0 1 0 .chooseStart (.wait2 1 2) .ncs := by
    rw [step_wait1_pass _ 1 (by rfl) (by omega) (by decide)
      (by rw [f3_mk2, choosing_mk3_2]; exact Bool.false_ne_true), setPc_mk3_1]
  have h12 : step (mk3 false false false 0 1 0 .chooseStart (.wait2 1 2) .ncs) 1
      = mk3 false false false 0 1 0 .chooseStart (.wait1 1 3) .ncs := by
    rw [step_wait2_pass _ 1 (by rfl) (by omega) (Or.inl (by rw [f3_mk2]; rfl)),
      setPc_mk3_1]
  have h13 : step (mk3 false false false 0 1 0 .chooseStart (.wait1 1 3) .ncs) 1
      = mk3 false false false 0 1 0 .chooseStart (.crit 1) .ncs := by
    rw [step_wait1_enter _ 1 (by rfl) (by omega), setPc_mk3_1]
  rw [applyList, base13]
  simp only [List.foldl]
  rw [h1, h2, h3, h4, h5, h6, h7, h8, h9, h10, h11, h12, h13]
  rfl

theorem maxt_no_add : ¬ MAXT + 1 < TICKET_MOD := by decide

/-- The five transitions of thread 0's overflowing choosing iteration. -/
theorem aStep1 : step (ladd1 MAXT) 0
    = mk3 true false false 0 MAXT 0 (.scan 0 0) (.crit MAXT) .ncs := by
  rw [step_chooseStart _ 0 (by rfl), ladd1, setChoosing_mk3_0, setPc_mk3_0]

theorem aStep2 : step (mk3 true false false 0 MAXT 0 (.scan 0 0) (.crit MAXT) .ncs) 0
    = mk3 true false false 0 MAXT 0 (.scan 1 0) (.crit MAXT) .ncs := by
  rw [step_scan_lt _ 0 (by rfl) (by omega), f3_mk0, ticket_mk3_0, setPc_mk3_0]
  norm_num

theorem aStep3 : step (mk3 true false false 0 MAXT 0 (.scan 1 0) (.crit MAXT) .ncs) 0
    = mk3 true false false 0 MAXT 0 (.scan 2 MAXT) (.crit MAXT) .ncs := by
  rw [step_scan_lt _ 0 (by rfl) (by omega), f3_mk1, ticket_mk3_1, setPc_mk3_0]
  norm_num

theorem aStep4 : step (mk3 true false false 0 MAXT 0 (.scan 2 MAXT) (.crit MAXT) .ncs) 0
    = mk3 true false false 0 MAXT 0 (.scan 3 MAXT) (.crit MAXT) .ncs := by
  rw [step_scan_lt _ 0 (by rfl) (by omega), f3_mk2, ticket_mk3_2, setPc_mk3_0]
  norm_num

theorem aStep5 : step (mk3 true false false 0 MAXT 0 (.scan 3 MAXT) (.crit MAXT) .ncs) 0
    = ladd1 MAXT := by
  rw [step_scan_overflow _ 0 (by rfl) (by omega) maxt_no_add, setChoosing_mk3_0,
    setPc_mk3_0]
  rfl

/-- Thread 0's whole choosing iteration observes `MAXT`, overflows, and
leaves the state unchanged. -/
theorem aRound_spec : applyList (ladd1 MAXT) aRound = ladd1 MAXT := by
  rw [applyList, aRound]
  simp only [List.foldl]
  rw [aStep1, aStep2, aStep3, aStep4, aStep5]

/-- The holder of ticket `MAXT` drains, returning to the parked base state. -/
theorem drain_spec : step (ladd1 MAXT) 1 = bstate := by
  rw [step_crit _ 1 (by rfl), ladd1, setTicket_mk3_1, setPc_mk3_1]
  rfl

/-- `j` double cycles climb the held ticket from 1 to `1 + 2 j`. -/
theorem climb_reach : ∀ j : ℕ, 1 + 2 * j ≤ MAXT →
    applyList (ladd1 1) (climbSeq j) = ladd1 (1 + 2 * j)
  | 0, _ => rfl
  | j + 1, hj => by
      have ih := climb_reach j (by omega)
      rw [climbSeq, applyList_append, ih, ddList, applyList_append]
      rw [cyc12_spec (1 + 2 * j) (by simp only [MAXT, TICKET_MOD] at hj ⊢; omega)]
      rw [cyc21_spec (1 + 2 * j + 1) (by simp only [MAXT, TICKET_MOD] at hj ⊢; omega)]
      have harg : 1 + 2 * j + 1 + 1 = 1 + 2 * (j + 1) := by ring
      rw [harg]

theorem jstar_eq : 1 + 2 * jstar = MAXT := by decide

/-- The no-thread-0 part of the period takes the base state to the ladder
top. -/
theorem part1_spec : applyList bstate (base13 ++ climbSeq jstar) = ladd1 MAXT := by
  rw [applyList_append, base13_spec, climb_reach jstar (le_of_eq jstar_eq), jstar_eq]

/-- One full period returns to the base state. -/
theorem super_spec : applyList bstate superList = bstate := by
  rw [superList]
  rw [show base13 ++ climbSeq jstar ++ aRound ++ [1]
      = (base13 ++ climbSeq jstar) ++ (aRound ++ [1]) by simp]
  rw [applyList_append, part1_spec, applyList_append, aRound_spec]
  show step (ladd1 MAXT) 1 = bstate
  exact drain_spec

theorem superList_eq : superList = part1 ++ (aRound ++ [1]) := by
  simp [superList, part1]

theorem climbSeq_len : ∀ j : ℕ, (climbSeq j).length = 28 * j
  | 0 => rfl
  | j + 1 => by
      rw [climbSeq, List.length_append, climbSeq_len j]
      have h28 : ddList.length = 28 := rfl
      rw [h28]
      ring

theorem part1_len : part1.length = 13 + 28 * jstar := by
  rw [part1, List.length_append, climbSeq_len]
  have h13 : base13.length = 13 := rfl
  rw [h13]

theorem superList_len : superList.length = part1.length + 6 := by
  rw [superList_eq, List.length_append]
  have h6 : (aRound ++ [1]).length = 6 := rfl
  rw [h6]

theorem superList_len_pos : 0 < superList.length := by
  rw [superList_len]
  omega

/-- Applying a schedule list that never schedules thread 0 leaves thread 0's
control location unchanged. -/
theorem pc0_applyList_no0 : ∀ (l : List (Fin 3)), (∀ c ∈ l, c ≠ 0) →
    ∀ s : State 3, (applyList s l).pc 0 = s.pc 0
  | [], _, _ => rfl
  | c :: rest, h, s => by
      have h1 := pc0_applyList_no0 rest
        (fun d hd => h d (List.mem_cons_of_mem c hd)) (step s c)
      rw [show applyList s (c :: rest) = applyList (step s c) rest from rfl, h1]
      exact pc_step_ne s c 0 (Ne.symm (h c (List.mem_cons_self c rest)))

theorem ddList_no0 : ∀ c ∈ ddList, c ≠ (0 : Fin 3) := by decide

theorem climbSeq_no0 : ∀ j : ℕ, ∀ c ∈ climbSeq j, c ≠ (0 : Fin 3)
  | 0 => by intro c hc; simp [climbSeq] at hc
  | j + 1 => by
      intro c hc
      rw [climbSeq, List.mem_append] at hc
      rcases hc with hc | hc
      · exact climbSeq_no0 j c hc
      · exact ddList_no0 c hc

theorem part1_no0 : ∀ c ∈ part1, c ≠ (0 : Fin 3) := by
  intro c hc
  rw [part1, List.mem_append] at hc
  rcases hc with hc | hc
  · revert hc
    revert c
    decide
  · exact climbSeq_no0 jstar c hc

theorem traceOf_add_list {N : ℕ} (sched : ℕ → Fin N) :
    ∀ (l : List (Fin N)) (n : ℕ),
    (∀ (i : ℕ) (hi : i < l.length), sched (n + i) = l.get ⟨i, hi⟩) →
    traceOf sched (n + l.length) = applyList (traceOf sched n) l
  | [], _, _ => rfl
  | c :: rest, n, h => by
      have h0 : sched n = c := by simpa using h 0 (Nat.succ_pos _)
      have hrest : ∀ (i : ℕ) (hi : i < rest.length),
          sched (n + 1 + i) = rest.get ⟨i, hi⟩ := by
        intro i hi
        have h2 := h (i + 1) (by simpa using Nat.succ_lt_succ hi)
        rw [show n + (i + 1) = n + 1 + i from by omega] at h2
        exact h2
      have hIH := traceOf_add_list sched rest (n + 1) hrest
      have hlen : n + (c :: rest).length = n + 1 + rest.length := by
        simp [List.length_cons]
        omega
      rw [hlen, hIH]
      show applyList (step (traceOf sched n) (sched n)) rest
          = applyList (traceOf sched n) (c :: rest)
      rw [h0]
      rfl

theorem sched_period (j i : ℕ) (hi : i < superList.length) :
    starveSched (1 + j * superList.length + i) = superList.get ⟨i, hi⟩ := by
  unfold starveSched
  rw [if_neg (by omega)]
  rw [show 1 + j * superList.length + i - 1 = j * superList.length + i from by omega]
  rw [show j * superList.length = superList.length * j from Nat.mul_comm _ _]
  rw [Nat.mul_add_mod, Nat.mod_eq_of_lt hi]
  exact List.getD_eq_get superList 0 hi

theorem trace_boundary (j : ℕ) :
    traceOf starveSched (1 + j * superList.length) = bstate := by
  induction j with
  | zero =>
      rw [Nat.zero_mul]
      show step (traceOf starveSched 0) (starveSched 0) = bstate
      rw [show starveSched 0 = 0 from rfl]
      exact bstate_eq
  | succ j ih =>
      have hlen : 1 + (j + 1) * superList.length
          = (1 + j * superList.length) + superList.length := by
        rw [Nat.succ_mul]
        omega
      rw [hlen,
        traceOf_add_list starveSched superList (1 + j * superList.length)
          (fun i hi => sched_period j i hi),
        ih, super_spec]

theorem trace_prefix (j r : ℕ) (hr : r ≤ superList.length) :
    traceOf starveSched (1 + j * superList.length + r)
      = applyList bstate (superList.take r) := by
  have hlen : (superList.take r).length = r := by
    rw [List.length_take]
    omega
  have h := traceOf_add_list starveSched (superList.take r) (1 + j * superList.length)
    (fun i hi => by
      rw [hlen] at hi
      rw [sched_period j i (lt_of_lt_of_le hi hr)]
      rw [List.get_eq_getElem, List.get_eq_getElem, List.getElem_take])
  rw [hlen] at h
  rw [h, trace_boundary j]

theorem climbSeq_comm : ∀ j : ℕ, climbSeq j ++ ddList = ddList ++ climbSeq j
  | 0 => by simp [climbSeq]
  | j + 1 => by
      rw [climbSeq, climbSeq_comm j, List.append_assoc, climbSeq_comm j]

theorem climbSeq_succ_front (j : ℕ) : climbSeq (j + 1) = ddList ++ climbSeq j := by
  rw [climbSeq]
  exact climbSeq_comm j

theorem jstar_pos : 1 ≤ jstar := by decide

/-- The first schedule slot of a period runs thread 1. -/
theorem superList_at_0 : superList.get? 0 = some 1 := by
  rw [superList_eq, List.get?_append (by rw [part1_len]; omega)]
  have h13 : base13.length = 13 := rfl
  rw [part1, List.get?_append (by rw [h13]; omega)]
  rfl

/-- Slot 13 of a period (the head of the climb) runs thread 2. -/
theorem superList_at_13 : superList.get? 13 = some 2 := by
  rw [superList_eq, List.get?_append (by rw [part1_len]; have := jstar_pos; omega)]
  have h13 : base13.length = 13 := rfl
  rw [part1, List.get?_append_right (by rw [h13])]
  have h0 : 13 - base13.length = 0 := by rw [h13]
  have hj : jstar = (jstar - 1) + 1 := by have := jstar_pos; omega
  rw [h0, hj, climbSeq_succ_front, List.get?_append (by decide)]
  rfl

/-- The slot right after `part1` runs thread 0 (its doomed scan). -/
theorem superList_at_p1 : superList.get? part1.length = some 0 := by
  rw [superList_eq, List.get?_append_right (le_refl _), Nat.sub_self]
  rfl

theorem part1_lt_super : part1.length < superList.length := by
  rw [superList_len]
  omega

/-- Any thread placed anywhere in the period list is scheduled at unboundedly
late times. -/
theorem starve_occurs (i : ℕ) (hi : i < superList.length) (v : Fin 3)
    (hv : superList.get? i = some v) (n : ℕ) :
    ∃ m, n ≤ m ∧ starveSched m = v := by
  refine ⟨1 + n * superList.length + i, ?_, ?_⟩
  · have h2 : n * 1 = n := Nat.mul_one n
    have h1 : n * 1 ≤ n * superList.length :=
      Nat.mul_le_mul_left n superList_len_pos
    omega
  · rw [sched_period n i hi]
    rw [List.get?_eq_get hi] at hv
    exact Option.some.inj hv

/-- The starvation schedule is fair: every thread runs infinitely often. -/
theorem starve_fair : Fair starveSched := by
  intro t n
  fin_cases t
  · exact starve_occurs part1.length part1_lt_super 0 superList_at_p1 n
  · exact starve_occurs 0 superList_len_pos 1 superList_at_0 n
  · exact starve_occurs 13
      (by rw [superList_len, part1_len]; have := jstar_pos; omega) 2
      superList_at_13 n

theorem trace_one : traceOf starveSched 1 = bstate := by
  have h := trace_boundary 0
  rwa [Nat.zero_mul, Nat.add_zero] at h

/-- Under the starvation schedule every acquirer eventually releases: at the
next period boundary nobody is in a critical section. -/
theorem starve_unlocks : ∀ (n : ℕ) (t : Fin 3) (k : ℕ),
    (traceOf starveSched n).pc t = .crit k →
    ∃ m, n ≤ m ∧ ((traceOf starveSched m).pc t).isCrit = false := by
  intro n t k _
  refine ⟨1 + n * superList.length, ?_, ?_⟩
  · have h2 : n * 1 = n := Nat.mul_one n
    have h1 : n * 1 ≤ n * superList.length :=
      Nat.mul_le_mul_left n superList_len_pos
    omega
  · rw [trace_boundary n]
    fin_cases t <;> rfl

/-- Thread 0's control location along the `aRound ++ [1]` tail of a period:
it only ever scans and re-parks, never entering the critical section. -/
theorem tail_states_no_crit (d : ℕ) (hd : d ≤ 6) :
    ((applyList (ladd1 MAXT) ((aRound ++ [1]).take d)).pc 0).isCrit = false := by
  interval_cases d
  · rw [List.take_zero, applyList_nil]
    rfl
  · have ht : (aRound ++ [1]).take 1 = [0] := rfl
    rw [ht, applyList]
    simp only [List.foldl]
    rw [aStep1]
    rfl
  · have ht : (aRound ++ [1]).take 2 = [0, 0] := rfl
    rw [ht, applyList]
    simp only [List.foldl]
    rw [aStep1, aStep2]
    rfl
  · have ht : (aRound ++ [1]).take 3 = [0, 0, 0] := rfl
    rw [ht, applyList]
    simp only [List.foldl]
    rw [aStep1, aStep2, aStep3]
    rfl
  · have ht : (aRound ++ [1]).take 4 = [0, 0, 0, 0] := rfl
    rw [ht, applyList]
    simp only [List.foldl]
    rw [aStep1, aStep2, aStep3, aStep4]
    rfl
  · have ht : (aRound ++ [1]).take 5 = aRound := rfl
    rw [ht, aRound_spec]
    rfl
  · have ht : (aRound ++ [1]).take 6 = aRound ++ [1] := rfl
    rw [ht, applyList_append, aRound_spec, applyList]
    simp only [List.foldl]
    rw [drain_spec]
    rfl

/-- Within any single period of the starvation schedule, thread 0 is never in
its critical section. -/
theorem take_pc0_not_crit (r : ℕ) (hr : r ≤ superList.length) :
    ((applyList bstate (superList.take r)).pc 0).isCrit = false := by
  by_cases h : r ≤ part1.length
  · rw [superList_eq, List.take_append_of_le_length h]
    rw [pc0_applyList_no0 _
      (fun c hc => part1_no0 c (List.take_subset r part1 hc)) bstate]
    rfl
  · push_neg at h
    have hd : r - part1.length ≤ 6 := by
      rw [superList_len] at hr
      omega
    have hr2 : r = part1.length + (r - part1.length) := by omega
    rw [superList_eq, hr2, List.take_append, applyList_append]
    have hp1 : applyList bstate part1 = ladd1 MAXT := part1_spec
    rw [hp1]
    exact tail_states_no_crit (r - part1.length) hd

/-- Under the starvation schedule, thread 0 never acquires the lock. -/
theorem starve_never_crit (n : ℕ) :
    ((traceOf starveSched n).pc 0).isCrit = false := by
  cases n with
  | zero => rfl
  | succ n =>
      have hL := superList_len_pos
      have hmod := Nat.mod_lt n hL
      have hdm := Nat.div_add_mod n superList.length
      have hc : superList.length * (n / superList.length)
          = (n / superList.length) * superList.length := Nat.mul_comm _ _
      have hdecomp : n + 1 = 1 + (n / superList.length) * superList.length
          + (n % superList.length) := by omega
      rw [hdecomp, trace_prefix _ _ (le_of_lt hmod)]
      exact take_pc0_not_crit _ (le_of_lt hmod)

/-- Counterexample to C5 as stated: under the fair schedule `starveSched`
(every thread runs infinitely often, and every acquirer of the lock
eventually releases it), thread 0 calls `lock` at step 0 and is inside the
call from step 1 on, yet never enters its critical section: every time it
scans it observes the maximal ticket `u32::MAX` held by the ladder of
threads 1 and 2, takes the overflow branch of `checked_add`, and retries
forever. -/
theorem eventual_entry_counterexample :
    ¬ (∀ (N : ℕ) (sched : ℕ → Fin N), Fair sched →
        (∀ (n : ℕ) (t : Fin N) (k : ℕ), (traceOf sched n).pc t = .crit k →
          ∃ m, n ≤ m ∧ ((traceOf sched m).pc t).isCrit = false) →
        ∀ (t : Fin N) (n : ℕ), inLock ((traceOf sched n).pc t) = true →
          ∃ m, n ≤ m ∧ ((traceOf sched m).pc t).isCrit = true) := by
  intro h
  obtain ⟨m, -, hm⟩ := h 3 starveSched starve_fair starve_unlocks 0 1
    (by rw [trace_one]; rfl)
  rw [starve_never_crit m] at hm
  exact Bool.false_ne_true hm

/-! ## Liveness: infrastructure on scheduled traces -/

theorem reachable_traceOf {N : ℕ} (sched : ℕ → Fin N) (n : ℕ) :
    Reachable (traceOf sched n) := by
  induction n with
  | zero => exact Reachable.init
  | succ n ih => exact Reachable.step (sched n) ih

/-- A thread's slots and control location are untouched over an interval in
which it is never scheduled. -/
theorem trace_stable {N : ℕ} (sched : ℕ → Fin N) (z : Fin N) :
    ∀ (n m : ℕ), n ≤ m → (∀ i, n ≤ i → i < m → sched i ≠ z) →
    (traceOf sched m).pc z = (traceOf sched n).pc z ∧
    (traceOf sched m).ticket z = (traceOf sched n).ticket z ∧
    (traceOf sched m).choosing z = (traceOf sched n).choosing z := by
  intro n m
  induction m with
  | zero =>
      intro hnm _
      have h0 : n = 0 := Nat.le_zero.mp hnm
      subst h0
      exact ⟨rfl, rfl, rfl⟩
  | succ m ih =>
      intro hnm h
      rcases Nat.lt_or_ge n (m + 1) with hlt | hge
      · have hnm2 : n ≤ m := by omega
        have hs : sched m ≠ z := h m (by omega) (by omega)
        obtain ⟨h1, h2, h3⟩ := ih hnm2 (fun i hi1 hi2 => h i hi1 (by omega))
        refine ⟨?_, ?_, ?_⟩
        · show (step (traceOf sched m) (sched m)).pc z = _
          rw [pc_step_ne _ _ _ (Ne.symm hs), h1]
        · show (step (traceOf sched m) (sched m)).ticket z = _
          rw [ticket_step_ne _ _ _ (Ne.symm hs), h2]
        · show (step (traceOf sched m) (sched m)).choosing z = _
          rw [choosing_step_ne _ _ _ (Ne.symm hs), h3]
      · have h0 : n = m + 1 := by omega
        subst h0
        exact ⟨rfl, rfl, rfl⟩

/-- Under a fair schedule, the first time a thread runs at or after `n`. -/
theorem firstSched {N : ℕ} {sched : ℕ → Fin N} (hfair : Fair sched)
    (z : Fin N) (n : ℕ) :
    ∃ m, n ≤ m ∧ sched m = z ∧ ∀ i, n ≤ i → i < m → sched i ≠ z := by
  obtain ⟨m0, hm0, hz⟩ := hfair z n
  have hex : ∃ m, n ≤ m ∧ sched m = z := ⟨m0, hm0, hz⟩
  refine ⟨Nat.find hex, (Nat.find_spec hex).1, (Nat.find_spec hex).2, ?_⟩
  intro i h1 h2 hcon
  exact Nat.find_min hex h2 ⟨h1, hcon⟩

/-- Under a fair schedule, every thread gets a next own step, and its slots
and control location are unchanged up to it. -/
theorem nextOwn {N : ℕ} {sched : ℕ → Fin N} (hfair : Fair sched)
    (z : Fin N) (n : ℕ) :
    ∃ m, n ≤ m ∧ sched m = z ∧
      (traceOf sched m).pc z = (traceOf sched n).pc z ∧
      (traceOf sched m).ticket z = (traceOf sched n).ticket z ∧
      (traceOf sched m).choosing z = (traceOf sched n).choosing z := by
  obtain ⟨m, h1, h2, h3⟩ := firstSched hfair z n
  exact ⟨m, h1, h2, trace_stable sched z n m h1 h3⟩

theorem stab_aux : ∀ (fuel : ℕ) (f : ℕ → ℕ) (B : ℕ), B ≤ f 0 + fuel →
    (∀ i, f i ≤ f (i + 1)) → (∀ i, f i ≤ B) →
    ∃ i, ∀ j, i ≤ j → f j = f i
  | 0, f, B, hfuel, hm, hb => by
      by_cases h : ∃ i, f 0 < f i
      · obtain ⟨i, hi⟩ := h
        exact absurd (hb i) (by omega)
      · push_neg at h
        exact ⟨0, fun j _ =>
          le_antisymm (h j) ((monotone_nat_of_le_succ hm) (Nat.zero_le j))⟩
  | fuel + 1, f, B, hfuel, hm, hb => by
      by_cases h : ∃ i, f 0 < f i
      · obtain ⟨i, hi⟩ := h
        obtain ⟨i2, hi2⟩ := stab_aux fuel (fun j => f (i + j)) B
          (by show B ≤ f (i + 0) + fuel; rw [Nat.add_zero]; omega)
          (fun j => by
            show f (i + j) ≤ f (i + (j + 1))
            rw [show i + (j + 1) = (i + j) + 1 from by omega]
            exact hm (i + j))
          (fun j => hb (i + j))
        refine ⟨i + i2, fun j hj => ?_⟩
        have h2 : f (i + (j - i)) = f (i + i2) := hi2 (j - i) (by omega)
        rw [show i + (j - i) = j from by omega] at h2
        exact h2
      · push_neg at h
        exact ⟨0, fun j _ =>
          le_antisymm (h j) ((monotone_nat_of_le_succ hm) (Nat.zero_le j))⟩

/-- A monotone bounded sequence of naturals is eventually constant. -/
theorem mono_bounded_stable (f : ℕ → ℕ) (B : ℕ) (hm : ∀ i, f i ≤ f (i + 1))
    (hb : ∀ i, f i ≤ B) : ∃ i, ∀ j, i ≤ j → f j = f i :=
  stab_aux B f B (by omega) hm hb

theorem waitsWith_iff (p : PC) (k : ℕ) :
    p.waitsWith k ↔ ∃ o, p = .wait1 k o ∨ p = .wait2 k o := by
  cases p <;> simp [PC.waitsWith]

theorem waitsWith_cTicket {p : PC} {k : ℕ} (h : p.waitsWith k) :
    p.cTicket = some k := by
  cases p with
  | ncs => exact False.elim h
  | chooseStart => exact False.elim h
  | scan j m => exact False.elim h
  | clearChoosing q => exact False.elim h
  | wait1 q o => rw [show q = k from h]; rfl
  | wait2 q o => rw [show q = k from h]; rfl
  | crit q => exact False.elim h

theorem waitsWith_isChoosing {p : PC} {k : ℕ} (h : p.waitsWith k) :
    p.isChoosing = false := by
  cases p <;> first | rfl | exact False.elim h

/-- Doorway progress: under a fair schedule, a thread whose control location
is in the choosing phase (or idle) eventually clears its choosing flag and
enters the wait loop, provided the overflow branch of `checked_add` is never
taken on this trace. -/
theorem doorway {N : ℕ} {sched : ℕ → Fin N} (hfair : Fair sched)
    (hno : ∀ (n : ℕ) (t : Fin N) (j m : ℕ),
      (traceOf sched n).pc t = .scan j m → N ≤ j → m + 1 < TICKET_MOD)
    (z : Fin N) :
    ∀ (d m : ℕ), doorMeasure N ((traceOf sched m).pc z) ≤ d →
    ((traceOf sched m).pc z).isWaiting = false →
    ((traceOf sched m).pc z).isCrit = false →
    ∃ m2 k, m ≤ m2 ∧ (traceOf sched m2).pc z = .wait1 k 0 := by
  intro d
  induction d with
  | zero =>
      intro m hmeas hw hc
      exfalso
      have hinv := inv_reachable (reachable_traceOf sched m)
      cases hp : (traceOf sched m).pc z with
      | ncs =>
          rw [hp] at hmeas
          simp only [doorMeasure] at hmeas
          omega
      | chooseStart =>
          rw [hp] at hmeas
          simp only [doorMeasure] at hmeas
          omega
      | scan j mm =>
          have hb := (hinv.scanB z j mm hp).1
          rw [hp] at hmeas
          simp only [doorMeasure] at hmeas
          omega
      | clearChoosing k =>
          rw [hp] at hmeas
          simp only [doorMeasure] at hmeas
          omega
      | wait1 k o =>
          rw [hp] at hw
          simp [PC.isWaiting] at hw
      | wait2 k o =>
          rw [hp] at hw
          simp [PC.isWaiting] at hw
      | crit k =>
          rw [hp] at hc
          simp [PC.isCrit] at hc
  | succ d ih =>
      intro m hmeas hw hc
      obtain ⟨m1, hm1, hsch, hpc1, -, -⟩ := nextOwn hfair z m
      have hinv := inv_reachable (reachable_traceOf sched m1)
      have hstep : traceOf sched (m1 + 1) = step (traceOf sched m1) z := by
        show step (traceOf sched m1) (sched m1) = _
        rw [hsch]
      cases hp : (traceOf sched m1).pc z with
      | ncs =>
          have hpm : (traceOf sched m).pc z = .ncs := by rw [← hpc1, hp]
          rw [hpm] at hmeas
          simp only [doorMeasure] at hmeas
          have h2 : (traceOf sched (m1 + 1)).pc z = .chooseStart := by
            rw [hstep, step_ncs _ z hp]
            simp
          obtain ⟨m2, k, hm2, hk⟩ := ih (m1 + 1)
            (by rw [h2]; simp only [doorMeasure]; omega)
            (by rw [h2]; rfl) (by rw [h2]; rfl)
          exact ⟨m2, k, by omega, hk⟩
      | chooseStart =>
          have hpm : (traceOf sched m).pc z = .chooseStart := by rw [← hpc1, hp]
          rw [hpm] at hmeas
          simp only [doorMeasure] at hmeas
          have h2 : (traceOf sched (m1 + 1)).pc z = .scan 0 0 := by
            rw [hstep, step_chooseStart _ z hp]
            simp
          obtain ⟨m2, k, hm2, hk⟩ := ih (m1 + 1)
            (by rw [h2]; simp only [doorMeasure]; omega)
            (by rw [h2]; rfl) (by rw [h2]; rfl)
          exact ⟨m2, k, by omega, hk⟩
      | scan j mm =>
          have hpm : (traceOf sched m).pc z = .scan j mm := by rw [← hpc1, hp]
          rw [hpm] at hmeas
          simp only [doorMeasure] at hmeas
          by_cases hj : j < N
          · have h2 : (traceOf sched (m1 + 1)).pc z
                = .scan (j + 1) (max mm ((traceOf sched m1).ticket ⟨j, hj⟩)) := by
              rw [hstep, step_scan_lt _ z hp hj]
              simp
            obtain ⟨m2, k, hm2, hk⟩ := ih (m1 + 1)
              (by rw [h2]; simp only [doorMeasure]; omega)
              (by rw [h2]; rfl) (by rw [h2]; rfl)
            exact ⟨m2, k, by omega, hk⟩
          · have hb := (hinv.scanB z j mm hp).1
            have hov := hno m1 z j mm hp (Nat.le_of_not_lt hj)
            have h2 : (traceOf sched (m1 + 1)).pc z = .clearChoosing (mm + 1) := by
              rw [hstep, step_scan_ok _ z hp hj hov]
              simp
            obtain ⟨m2, k, hm2, hk⟩ := ih (m1 + 1)
              (by rw [h2]; simp only [doorMeasure]; omega)
              (by rw [h2]; rfl) (by rw [h2]; rfl)
            exact ⟨m2, k, by omega, hk⟩
      | clearChoosing k =>
          have h2 : (traceOf sched (m1 + 1)).pc z = .wait1 k 0 := by
            rw [hstep, step_clearChoosing _ z hp]
            simp
          exact ⟨m1 + 1, k, by omega, h2⟩
      | wait1 k o =>
          exfalso
          have hpm : (traceOf sched m).pc z = .wait1 k o := by rw [← hpc1, hp]
          rw [hpm] at hw
          simp [PC.isWaiting] at hw
      | wait2 k o =>
          exfalso
          have hpm : (traceOf sched m).pc z = .wait2 k o := by rw [← hpc1, hp]
          rw [hpm] at hw
          simp [PC.isWaiting] at hw
      | crit k =>
          exfalso
          have hpm : (traceOf sched m).pc z = .crit k := by rw [← hpc1, hp]
          rw [hpm] at hc
          simp [PC.isCrit] at hc

/-- A thread in the wait loop that never reaches its critical section stays
in the wait loop with the same committed ticket forever. -/
theorem wait_persist {N : ℕ} {sched : ℕ → Fin N} (z : Fin N) (k : ℕ) (m0 : ℕ)
    (hnc : ∀ m, m0 ≤ m → ((traceOf sched m).pc z).isCrit = false)
    (hw : ((traceOf sched m0).pc z).waitsWith k) :
    ∀ m, m0 ≤ m → ((traceOf sched m).pc z).waitsWith k := by
  intro m
  induction m with
  | zero =>
      intro h0
      have h1 : m0 = 0 := Nat.le_zero.mp h0
      subst h1
      exact hw
  | succ m ih =>
      intro hm
      rcases Nat.lt_or_ge m0 (m + 1) with hlt | hge
      · have hm2 : m0 ≤ m := by omega
        have hw2 := ih hm2
        by_cases hs : sched m = z
        · have hstep : traceOf sched (m + 1) = step (traceOf sched m) z := by
            show step (traceOf sched m) (sched m) = _
            rw [hs]
          obtain ⟨o, ho⟩ := (waitsWith_iff _ k).mp hw2
          rcases ho with ho | ho
          · by_cases hoN : o < N
            · by_cases hoz : o = z.val
              · rw [hstep, step_wait1_self _ z ho hoN hoz]
                simp only [setPc_pc, updf_same]
                rfl
              · by_cases hch : (traceOf sched m).choosing ⟨o, hoN⟩ = true
                · rw [hstep, step_wait1_spin _ z ho hoN hoz hch]
                  exact hw2
                · rw [hstep, step_wait1_pass _ z ho hoN hoz hch]
                  simp only [setPc_pc, updf_same]
                  rfl
            · exfalso
              have h2 : (traceOf sched (m + 1)).pc z = .crit k := by
                rw [hstep, step_wait1_enter _ z ho hoN]
                simp
              have h3 := hnc (m + 1) (by omega)
              rw [h2] at h3
              simp [PC.isCrit] at h3
          · by_cases hoN : o < N
            · by_cases hcond : (traceOf sched m).ticket ⟨o, hoN⟩ = 0 ∨
                  lexLt k z.val ((traceOf sched m).ticket ⟨o, hoN⟩) o
              · rw [hstep, step_wait2_pass _ z ho hoN hcond]
                simp only [setPc_pc, updf_same]
                rfl
              · rw [hstep, step_wait2_spin _ z ho hoN hcond]
                exact hw2
            · rw [hstep, step_wait2_oob _ z ho hoN]
              exact hw2
        · have h1 : (traceOf sched (m + 1)).pc z = (traceOf sched m).pc z := by
            show (step (traceOf sched m) (sched m)).pc z = _
            exact pc_step_ne _ _ _ (Ne.symm hs)
          rw [h1]
          exact hw2
      · have h1 : m0 = m + 1 := by omega
        subst h1
        exact hw

/-- Once a thread `y` is observed idle while the watcher `x` holds a fixed
committed ticket `k`, the `ySafe` bookkeeping is preserved forever: `y`'s
ticket slot is `0` until it commits, any scan past slot `x` carries a running
maximum at least `k`, and every committed ticket of `y` exceeds `k`. -/
theorem ySafe_persist {N : ℕ} {sched : ℕ → Fin N} (x y : Fin N) (k : ℕ)
    (n1 : ℕ) (htx : ∀ m, n1 ≤ m → (traceOf sched m).ticket x = k)
    (m3 : ℕ) (hm3 : n1 ≤ m3)
    (hbase : ySafe k x.val ((traceOf sched m3).pc y) ((traceOf sched m3).ticket y)) :
    ∀ m, m3 ≤ m →
      ySafe k x.val ((traceOf sched m).pc y) ((traceOf sched m).ticket y) := by
  intro m
  induction m with
  | zero =>
      intro h0
      have h1 : m3 = 0 := Nat.le_zero.mp h0
      subst h1
      exact hbase
  | succ m ih =>
      intro hm
      rcases Nat.lt_or_ge m3 (m + 1) with hlt | hge
      swap
      · have h1 : m3 = m + 1 := by omega
        subst h1
        exact hbase
      have hm2 : m3 ≤ m := by omega
      have hy2 := ih hm2
      by_cases hs : sched m = y
      · have hstep : traceOf sched (m + 1) = step (traceOf sched m) y := by
          show step (traceOf sched m) (sched m) = _
          rw [hs]
        cases hp : (traceOf sched m).pc y with
        | ncs =>
            rw [hp] at hy2
            have hty : (traceOf sched m).ticket y = 0 := hy2
            rw [hstep, step_ncs _ y hp]
            simp only [setPc_pc, updf_same, setPc_ticket]
            exact hty
        | chooseStart =>
            rw [hp] at hy2
            have hty : (traceOf sched m).ticket y = 0 := hy2
            rw [hstep, step_chooseStart _ y hp]
            simp only [setPc_pc, updf_same, setPc_ticket, setChoosing_ticket]
            exact ⟨hty, fun hcon => absurd hcon (by omega)⟩
        | scan j mm =>
            rw [hp] at hy2
            obtain ⟨hty, hsc⟩ :
                (traceOf sched m).ticket y = 0 ∧ (x.val < j → k ≤ mm) := hy2
            by_cases hj : j < N
            · rw [hstep, step_scan_lt _ y hp hj]
              simp only [setPc_pc, updf_same, setPc_ticket]
              refine ⟨hty, ?_⟩
              intro hxj
              rcases Nat.lt_or_ge x.val j with hxa | hxa
              · exact le_trans (hsc hxa) (le_max_left _ _)
              · have hxe : x.val = j := by omega
                have hfx : (⟨j, hj⟩ : Fin N) = x := Fin.ext hxe.symm
                rw [hfx, htx m (by omega)]
                exact le_max_right _ _
            · by_cases hov : mm + 1 < TICKET_MOD
              · rw [hstep, step_scan_ok _ y hp hj hov]
                simp only [setPc_pc, updf_same, setPc_ticket, setTicket_ticket]
                refine ⟨rfl, ?_⟩
                have hxN := x.isLt
                have hk2 : k ≤ mm := hsc (by omega)
                omega
              · rw [hstep, step_scan_overflow _ y hp hj hov]
                simp only [setPc_pc, updf_same, setPc_ticket, setChoosing_ticket]
                exact hty
        | clearChoosing q =>
            rw [hp] at hy2
            obtain ⟨hty, hq⟩ : (traceOf sched m).ticket y = q ∧ k < q := hy2
            rw [hstep, step_clearChoosing _ y hp]
            simp only [setPc_pc, updf_same, setPc_ticket, setChoosing_ticket]
            exact ⟨hty, hq⟩
        | wait1 q o =>
            rw [hp] at hy2
            obtain ⟨hty, hq⟩ : (traceOf sched m).ticket y = q ∧ k < q := hy2
            by_cases hoN : o < N
            · by_cases hoz : o = y.val
              · rw [hstep, step_wait1_self _ y hp hoN hoz]
                simp only [setPc_pc, updf_same, setPc_ticket]
                exact ⟨hty, hq⟩
              · by_cases hch : (traceOf sched m).choosing ⟨o, hoN⟩ = true
                · rw [hstep, step_wait1_spin _ y hp hoN hoz hch, hp]
                  exact ⟨hty, hq⟩
                · rw [hstep, step_wait1_pass _ y hp hoN hoz hch]
                  simp only [setPc_pc, updf_same, setPc_ticket]
                  exact ⟨hty, hq⟩
            · rw [hstep, step_wait1_enter _ y hp hoN]
              simp only [setPc_pc, updf_same, setPc_ticket]
              exact ⟨hty, hq⟩
        | wait2 q o =>
            rw [hp] at hy2
            obtain ⟨hty, hq⟩ : (traceOf sched m).ticket y = q ∧ k < q := hy2
            by_cases hoN : o < N
            · by_cases hcond : (traceOf sched m).ticket ⟨o, hoN⟩ = 0 ∨
                  lexLt q y.val ((traceOf sched m).ticket ⟨o, hoN⟩) o
              · rw [hstep, step_wait2_pass _ y hp hoN hcond]
                simp only [setPc_pc, updf_same, setPc_ticket]
                exact ⟨hty, hq⟩
              · rw [hstep, step_wait2_spin _ y hp hoN hcond, hp]
                exact ⟨hty, hq⟩
            · rw [hstep, step_wait2_oob _ y hp hoN, hp]
              exact ⟨hty, hq⟩
        | crit q =>
            rw [hstep, step_crit _ y hp]
            simp only [setPc_pc, updf_same, setPc_ticket, setTicket_ticket]
            rfl
      · have h1 : (traceOf sched (m + 1)).pc y = (traceOf sched m).pc y := by
          show (step (traceOf sched m) (sched m)).pc y = _
          exact pc_step_ne _ _ _ (Ne.symm hs)
        have h2 : (traceOf sched (m + 1)).ticket y = (traceOf sched m).ticket y := by
          show (step (traceOf sched m) (sched m)).ticket y = _
          exact ticket_step_ne _ _ _ (Ne.symm hs)
        rw [h1, h2]
        exact hy2

/-- A thread `y` in its wait loop whose priority pair does not beat the
watcher `x`'s pair `(k, x)` can never pass slot `x`: its loop index stays at
or below `x` forever (while `x`'s ticket stays `k`). -/
theorem blocked_persist {N : ℕ} {sched : ℕ → Fin N} (x y : Fin N) (k q : ℕ)
    (hq : ¬ lexLt q y.val k x.val) (hk : 0 < k)
    (hyx : y.val ≠ x.val) (n1 : ℕ)
    (htx : ∀ m, n1 ≤ m → (traceOf sched m).ticket x = k)
    (m6 : ℕ) (hm6 : n1 ≤ m6)
    (hxN : x.val < N)
    (hbase : blockedBelow q x.val ((traceOf sched m6).pc y)) :
    ∀ m, m6 ≤ m → blockedBelow q x.val ((traceOf sched m).pc y) := by
  intro m
  induction m with
  | zero =>
      intro h0
      have h1 : m6 = 0 := Nat.le_zero.mp h0
      subst h1
      exact hbase
  | succ m ih =>
      intro hm
      rcases Nat.lt_or_ge m6 (m + 1) with hlt | hge
      swap
      · have h1 : m6 = m + 1 := by omega
        subst h1
        exact hbase
      have hb := ih (by omega)
      by_cases hs : sched m = y
      · have hstep : traceOf sched (m + 1) = step (traceOf sched m) y := by
          show step (traceOf sched m) (sched m) = _
          rw [hs]
        obtain ⟨o, hole, ho⟩ := hb
        have hoN : o < N := by omega
        rcases ho with ho | ho
        · by_cases hoz : o = y.val
          · have holt : o < x.val := by omega
            rw [hstep, step_wait1_self _ y ho hoN hoz]
            refine ⟨o + 1, by omega, Or.inl ?_⟩
            simp
          · by_cases hch : (traceOf sched m).choosing ⟨o, hoN⟩ = true
            · rw [hstep, step_wait1_spin _ y ho hoN hoz hch]
              exact ⟨o, hole, Or.inl ho⟩
            · rw [hstep, step_wait1_pass _ y ho hoN hoz hch]
              refine ⟨o, hole, Or.inr ?_⟩
              simp
        · by_cases hcond : (traceOf sched m).ticket ⟨o, hoN⟩ = 0 ∨
              lexLt q y.val ((traceOf sched m).ticket ⟨o, hoN⟩) o
          · have holt : o < x.val := by
              rcases Nat.lt_or_ge o x.val with h1 | h1
              · exact h1
              · exfalso
                have hoe : o = x.val := by omega
                have hfx : (⟨o, hoN⟩ : Fin N) = x := Fin.ext hoe
                rw [hfx, htx m (by omega)] at hcond
                rcases hcond with hcond | hcond
                · omega
                · exact hq (hoe ▸ hcond)
            rw [hstep, step_wait2_pass _ y ho hoN hcond]
            refine ⟨o + 1, by omega, Or.inl ?_⟩
            simp
          · rw [hstep, step_wait2_spin _ y ho hoN hcond]
            exact ⟨o, hole, Or.inr ho⟩
      · have h1 : (traceOf sched (m + 1)).pc y = (traceOf sched m).pc y := by
          show (step (traceOf sched m) (sched m)).pc y = _
          exact pc_step_ne _ _ _ (Ne.symm hs)
        rw [h1]
        exact hb

/-- If the stuck watcher `x`'s wait loop is parked at slot `y` and from some
time on `y`'s choosing flag is down and `y`'s ticket is a fixed value that
loses to `x`'s pair, then `x` passes slot `y` at its next own steps —
contradicting the loop index being parked. -/
theorem final_pass {N : ℕ} {sched : ℕ → Fin N} (hfair : Fair sched)
    (x y : Fin N) (k q : ℕ) (hyx : y.val ≠ x.val) (hyN : y.val < N)
    (n2 : ℕ)
    (hstuck : ∀ m, n2 ≤ m → ((traceOf sched m).pc x).waitsWith k)
    (hoc : ∀ m, n2 ≤ m → PC.oIdx ((traceOf sched m).pc x) = y.val)
    (m7 : ℕ) (hm7 : n2 ≤ m7)
    (hgood : ∀ m, m7 ≤ m → (traceOf sched m).choosing y = false ∧
      (traceOf sched m).ticket y = q)
    (hpass : lexLt k x.val q y.val) : False := by
  obtain ⟨m8, hm8, hs8, hpc8, -, -⟩ := nextOwn hfair x m7
  have hw8 : ((traceOf sched m8).pc x).waitsWith k := hstuck m8 (by omega)
  obtain ⟨o, ho⟩ := (waitsWith_iff _ _).mp hw8
  have hov : o = y.val := by
    have h2 := hoc m8 (by omega)
    rcases ho with ho | ho <;> rw [ho] at h2 <;> simpa [PC.oIdx] using h2
  have hoN2 : o < N := by rw [hov]; exact hyN
  have hpasso : lexLt k x.val q o := by rw [hov]; exact hpass
  have hstep8 : traceOf sched (m8 + 1) = step (traceOf sched m8) x := by
    show step (traceOf sched m8) (sched m8) = _
    rw [hs8]
  have hfin : (⟨o, hoN2⟩ : Fin N) = y := Fin.ext hov
  rcases ho with ho | ho
  · have hch : ¬ (traceOf sched m8).choosing ⟨o, hoN2⟩ = true := by
      rw [hfin, (hgood m8 (by omega)).1]
      exact Bool.false_ne_true
    have hoxv : o ≠ x.val := by rw [hov]; exact hyx
    have h2 : (traceOf sched (m8 + 1)).pc x = .wait2 k o := by
      rw [hstep8, step_wait1_pass _ x ho hoN2 hoxv hch]
      simp
    obtain ⟨m9, hm9, hs9, hpc9, -, -⟩ := nextOwn hfair x (m8 + 1)
    have hstep9 : traceOf sched (m9 + 1) = step (traceOf sched m9) x := by
      show step (traceOf sched m9) (sched m9) = _
      rw [hs9]
    have hpcx9 : (traceOf sched m9).pc x = .wait2 k o := by
      rw [hpc9, h2]
    have hcond : (traceOf sched m9).ticket ⟨o, hoN2⟩ = 0 ∨
        lexLt k x.val ((traceOf sched m9).ticket ⟨o, hoN2⟩) o := by
      rw [hfin, (hgood m9 (by omega)).2]
      exact Or.inr hpasso
    have h3 : (traceOf sched (m9 + 1)).pc x = .wait1 k (o + 1) := by
      rw [hstep9, step_wait2_pass _ x hpcx9 hoN2 hcond]
      simp
    have h4 := hoc (m9 + 1) (by omega)
    rw [h3] at h4
    simp only [PC.oIdx] at h4
    omega
  · have hcond : (traceOf sched m8).ticket ⟨o, hoN2⟩ = 0 ∨
        lexLt k x.val ((traceOf sched m8).ticket ⟨o, hoN2⟩) o := by
      rw [hfin, (hgood m8 (by omega)).2]
      exact Or.inr hpasso
    have h3 : (traceOf sched (m8 + 1)).pc x = .wait1 k (o + 1) := by
      rw [hstep8, step_wait2_pass _ x ho hoN2 hcond]
      simp
    have h4 := hoc (m8 + 1) (by omega)
    rw [h3] at h4
    simp only [PC.oIdx] at h4
    omega

/-- Core of the liveness argument: under a fair schedule on which the
overflow branch is never taken, no thread can sit in its wait loop with a
fixed committed ticket forever.  Strong induction on the priority measure
`k * N + x`: a stuck thread's loop index eventually parks at some slot `y`;
either `y` is itself stuck forever with a lexicographically smaller pair
(impossible by induction), or `y`'s ticket slot eventually stays `0` or
above `k`, letting the stuck thread pass slot `y` after all. -/
theorem stuck_false {N : ℕ} {sched : ℕ → Fin N} (hfair : Fair sched)
    (hno : ∀ (n : ℕ) (t : Fin N) (j m : ℕ),
      (traceOf sched n).pc t = .scan j m → N ≤ j → m + 1 < TICKET_MOD) :
    ∀ (e : ℕ) (x : Fin N) (k : ℕ), k * N + x.val ≤ e →
    ∀ n1, ¬ (∀ m, n1 ≤ m → ((traceOf sched m).pc x).waitsWith k) := by
  intro e
  induction e with
  | zero =>
      intro x k he n1 hstuck
      have hinv := inv_reachable (reachable_traceOf sched n1)
      have hct := waitsWith_cTicket (hstuck n1 le_rfl)
      have hk := (hinv.tkS x k hct).2.1
      have hxN := x.isLt
      have hN : 1 * N ≤ k * N := Nat.mul_le_mul_right N hk
      have h1 : 1 * N = N := Nat.one_mul N
      omega
  | succ e ih =>
      intro x k he n1 hstuck
      have hinvm : ∀ m, Inv (traceOf sched m) :=
        fun m => inv_reachable (reachable_traceOf sched m)
      have htkx : ∀ m, n1 ≤ m → (traceOf sched m).ticket x = k := fun m hm =>
        ((hinvm m).tkS x k (waitsWith_cTicket (hstuck m hm))).1
      have hkpos : 0 < k :=
        ((hinvm n1).tkS x k (waitsWith_cTicket (hstuck n1 le_rfl))).2.1
      have hmono : ∀ m, n1 ≤ m →
          PC.oIdx ((traceOf sched m).pc x)
            ≤ PC.oIdx ((traceOf sched (m + 1)).pc x) := by
        intro m hm
        by_cases hs : sched m = x
        · have hstep : traceOf sched (m + 1) = step (traceOf sched m) x := by
            show step (traceOf sched m) (sched m) = _
            rw [hs]
          obtain ⟨o, ho⟩ := (waitsWith_iff _ _).mp (hstuck m hm)
          rcases ho with ho | ho
          · by_cases hoN : o < N
            · by_cases hoz : o = x.val
              · rw [hstep, step_wait1_self _ x ho hoN hoz, ho]
                simp only [setPc_pc, updf_same, PC.oIdx]
                omega
              · by_cases hch : (traceOf sched m).choosing ⟨o, hoN⟩ = true
                · rw [hstep, step_wait1_spin _ x ho hoN hoz hch]
                · rw [hstep, step_wait1_pass _ x ho hoN hoz hch, ho]
                  simp only [setPc_pc, updf_same, PC.oIdx]
                  omega
            · exfalso
              have h2 : (traceOf sched (m + 1)).pc x = .crit k := by
                rw [hstep, step_wait1_enter _ x ho hoN]
                simp
              have h3 := hstuck (m + 1) (by omega)
              rw [h2] at h3
              exact False.elim h3
          · by_cases hoN : o < N
            · by_cases hcond : (traceOf sched m).ticket ⟨o, hoN⟩ = 0 ∨
                  lexLt k x.val ((traceOf sched m).ticket ⟨o, hoN⟩) o
              · rw [hstep, step_wait2_pass _ x ho hoN hcond, ho]
                simp only [setPc_pc, updf_same, PC.oIdx]
                omega
              · rw [hstep, step_wait2_spin _ x ho hoN hcond]
            · rw [hstep, step_wait2_oob _ x ho hoN]
        · have h1 : (traceOf sched (m + 1)).pc x = (traceOf sched m).pc x := by
            show (step (traceOf sched m) (sched m)).pc x = _
            exact pc_step_ne _ _ _ (Ne.symm hs)
          rw [h1]
      have hbd : ∀ m, n1 ≤ m → PC.oIdx ((traceOf sched m).pc x) ≤ N := by
        intro m hm
        obtain ⟨o, ho⟩ := (waitsWith_iff _ _).mp (hstuck m hm)
        rcases ho with ho | ho
        · rw [ho]
          simp only [PC.oIdx]
          exact (hinvm m).w1B x k o ho
        · rw [ho]
          simp only [PC.oIdx]
          exact le_of_lt ((hinvm m).w2B x k o ho).1
      obtain ⟨i0, hi0⟩ := mono_bounded_stable
        (fun i => PC.oIdx ((traceOf sched (n1 + i)).pc x)) N
        (fun i => by
          show PC.oIdx ((traceOf sched (n1 + i)).pc x)
            ≤ PC.oIdx ((traceOf sched (n1 + (i + 1))).pc x)
          have h2 := hmono (n1 + i) (by omega)
          rw [show n1 + i + 1 = n1 + (i + 1) from by omega] at h2
          exact h2)
        (fun i => hbd (n1 + i) (by omega))
      obtain ⟨ostar, hostar⟩ : ∃ v, ∀ m, n1 + i0 ≤ m →
          PC.oIdx ((traceOf sched m).pc x) = v := by
        refine ⟨PC.oIdx ((traceOf sched (n1 + i0)).pc x), fun m hm => ?_⟩
        have h2 : PC.oIdx ((traceOf sched (n1 + (m - n1))).pc x)
            = PC.oIdx ((traceOf sched (n1 + i0)).pc x) := hi0 (m - n1) (by omega)
        rw [show n1 + (m - n1) = m from by omega] at h2
        exact h2
      obtain ⟨m1, hm1, hs1, hpc1, -, -⟩ := nextOwn hfair x (n1 + i0)
      have hstep1 : traceOf sched (m1 + 1) = step (traceOf sched m1) x := by
        show step (traceOf sched m1) (sched m1) = _
        rw [hs1]
      obtain ⟨o1, ho1⟩ := (waitsWith_iff _ _).mp (hstuck m1 (by omega))
      have ho1v : o1 = ostar := by
        have h2 := hostar m1 (by omega)
        rcases ho1 with ho1 | ho1 <;> rw [ho1] at h2 <;> simpa [PC.oIdx] using h2
      rw [ho1v] at ho1
      have hoN : ostar < N := by
        rcases ho1 with ho1 | ho1
        · by_contra hge
          have h2 : (traceOf sched (m1 + 1)).pc x = .crit k := by
            rw [hstep1, step_wait1_enter _ x ho1 hge]
            simp
          have h3 := hstuck (m1 + 1) (by omega)
          rw [h2] at h3
          exact False.elim h3
        · exact ((hinvm m1).w2B x k ostar ho1).1
      have hnex : ostar ≠ x.val := by
        rcases ho1 with ho1 | ho1
        · intro heq
          have h2 : (traceOf sched (m1 + 1)).pc x = .wait1 k (ostar + 1) := by
            rw [hstep1, step_wait1_self _ x ho1 hoN heq]
            simp
          have h3 := hostar (m1 + 1) (by omega)
          rw [h2] at h3
          simp only [PC.oIdx] at h3
          omega
        · exact fun heq => ((hinvm m1).w2B x k ostar ho1).2 heq
      have hyx : (⟨ostar, hoN⟩ : Fin N).val ≠ x.val := hnex
      by_cases hncs : ∃ m3, n1 + i0 ≤ m3 ∧
          (traceOf sched m3).pc ⟨ostar, hoN⟩ = .ncs
      · obtain ⟨m3, hm3, hy3⟩ := hncs
        have hsafe := ySafe_persist x ⟨ostar, hoN⟩ k n1 htkx m3 (by omega)
          (by
            rw [hy3]
            have h0 : (traceOf sched m3).ticket ⟨ostar, hoN⟩ = 0 :=
              (hinvm m3).tk0 _ (by rw [hy3]; rfl)
            rw [h0]
            rfl)
        obtain ⟨m4, hm4, hs4, hpc4, -, -⟩ := nextOwn hfair ⟨ostar, hoN⟩ m3
        have hstep4 : traceOf sched (m4 + 1)
            = step (traceOf sched m4) ⟨ostar, hoN⟩ := by
          show step (traceOf sched m4) (sched m4) = _
          rw [hs4]
        have hpcy4 : (traceOf sched m4).pc ⟨ostar, hoN⟩ = .ncs := by
          rw [hpc4, hy3]
        have h5 : (traceOf sched (m4 + 1)).pc ⟨ostar, hoN⟩ = .chooseStart := by
          rw [hstep4, step_ncs _ _ hpcy4]
          simp
        obtain ⟨m6, κ, hm6, h6⟩ := doorway hfair hno ⟨ostar, hoN⟩ (N + 4) (m4 + 1)
          (by rw [h5]; simp only [doorMeasure]; omega)
          (by rw [h5]; rfl) (by rw [h5]; rfl)
        have hsafe6 := hsafe m6 (by omega)
        rw [h6] at hsafe6
        obtain ⟨-, hκ⟩ : (traceOf sched m6).ticket ⟨ostar, hoN⟩ = κ ∧ k < κ :=
          hsafe6
        have hblock := blocked_persist x ⟨ostar, hoN⟩ k κ
          (by
            intro hcon
            rcases hcon with hcon | ⟨hcon, -⟩ <;> omega)
          hkpos hyx n1 htkx m6 (by omega) x.isLt
          ⟨0, Nat.zero_le _, Or.inl h6⟩
        have hgood : ∀ m, m6 ≤ m →
            (traceOf sched m).choosing ⟨ostar, hoN⟩ = false ∧
            (traceOf sched m).ticket ⟨ostar, hoN⟩ = κ := by
          intro m hm
          obtain ⟨o2, ho2le, ho2⟩ := hblock m hm
          constructor
          · rw [(hinvm m).flag]
            rcases ho2 with ho2 | ho2 <;> rw [ho2] <;> rfl
          · rcases ho2 with ho2 | ho2
            · exact ((hinvm m).tkS _ κ (by rw [ho2]; rfl)).1
            · exact ((hinvm m).tkS _ κ (by rw [ho2]; rfl)).1
        exact final_pass hfair x ⟨ostar, hoN⟩ k κ hyx hoN (n1 + i0)
          (fun m hm => hstuck m (by omega)) hostar m6 (by omega)
          hgood (Or.inl hκ)
      · push_neg at hncs
        have hnoc : ∀ m, n1 + i0 ≤ m →
            ((traceOf sched m).pc ⟨ostar, hoN⟩).isCrit = false := by
          intro m hm
          by_contra hcrit
          rw [Bool.not_eq_false] at hcrit
          obtain ⟨κ, hκ⟩ := (isCrit_iff _).mp hcrit
          obtain ⟨m5, hm5, hs5, hpc5, -, -⟩ := nextOwn hfair ⟨ostar, hoN⟩ m
          have hstep5 : traceOf sched (m5 + 1)
              = step (traceOf sched m5) ⟨ostar, hoN⟩ := by
            show step (traceOf sched m5) (sched m5) = _
            rw [hs5]
          have hpcy5 : (traceOf sched m5).pc ⟨ostar, hoN⟩ = .crit κ := by
            rw [hpc5, hκ]
          have h2 : (traceOf sched (m5 + 1)).pc ⟨ostar, hoN⟩ = .ncs := by
            rw [hstep5, step_crit _ _ hpcy5]
            simp
          exact hncs (m5 + 1) (by omega) h2
        have hwf : ∃ m5 κ0, n1 + i0 ≤ m5 ∧
            ((traceOf sched m5).pc ⟨ostar, hoN⟩).waitsWith κ0 := by
          cases hp : (traceOf sched (n1 + i0)).pc ⟨ostar, hoN⟩ with
          | ncs => exact absurd hp (hncs _ le_rfl)
          | crit κ =>
              have h2 := hnoc (n1 + i0) le_rfl
              rw [hp] at h2
              exact absurd h2 (by simp [PC.isCrit])
          | wait1 κ o => exact ⟨n1 + i0, κ, le_rfl, by rw [hp]; rfl⟩
          | wait2 κ o => exact ⟨n1 + i0, κ, le_rfl, by rw [hp]; rfl⟩
          | chooseStart =>
              obtain ⟨m2, κ, hm2, h2⟩ := doorway hfair hno _ (N + 4) (n1 + i0)
                (by rw [hp]; simp only [doorMeasure]; omega)
                (by rw [hp]; rfl) (by rw [hp]; rfl)
              exact ⟨m2, κ, by omega, by rw [h2]; rfl⟩
          | scan j mm =>
              obtain ⟨m2, κ, hm2, h2⟩ := doorway hfair hno _ (N + 4) (n1 + i0)
                (by rw [hp]; simp only [doorMeasure]; omega)
                (by rw [hp]; rfl) (by rw [hp]; rfl)
              exact ⟨m2, κ, by omega, by rw [h2]; rfl⟩
          | clearChoosing κ =>
              obtain ⟨m2, κ2, hm2, h2⟩ := doorway hfair hno _ (N + 4) (n1 + i0)
                (by rw [hp]; simp only [doorMeasure]; omega)
                (by rw [hp]; rfl) (by rw [hp]; rfl)
              exact ⟨m2, κ2, by omega, by rw [h2]; rfl⟩
        obtain ⟨m5, κ0, hm5, hw5⟩ := hwf
        have hyStuck : ∀ m, m5 ≤ m →
            ((traceOf sched m).pc ⟨ostar, hoN⟩).waitsWith κ0 :=
          wait_persist _ κ0 m5 (fun m hm => hnoc m (by omega)) hw5
        by_cases hlex : lexLt κ0 ostar k x.val
        · have hmeas : κ0 * N + (⟨ostar, hoN⟩ : Fin N).val ≤ e := by
            have hxlt := x.isLt
            have hval : (⟨ostar, hoN⟩ : Fin N).val = ostar := rfl
            rw [hval]
            rcases hlex with hlex | ⟨hleq, hlt⟩
            · have h2 : κ0 + 1 ≤ k := hlex
              have h3 : (κ0 + 1) * N ≤ k * N := Nat.mul_le_mul_right N h2
              have h4 : (κ0 + 1) * N = κ0 * N + N := by ring
              omega
            · subst hleq
              omega
          exact ih ⟨ostar, hoN⟩ κ0 hmeas m5 hyStuck
        · have hgood : ∀ m, m5 ≤ m →
              (traceOf sched m).choosing ⟨ostar, hoN⟩ = false ∧
              (traceOf sched m).ticket ⟨ostar, hoN⟩ = κ0 := by
            intro m hm
            have hwm := hyStuck m hm
            exact ⟨by rw [(hinvm m).flag]; exact waitsWith_isChoosing hwm,
              ((hinvm m).tkS _ κ0 (waitsWith_cTicket hwm)).1⟩
          have hpass : lexLt k x.val κ0 ostar := by
            unfold lexLt at hlex ⊢
            omega
          exact final_pass hfair x ⟨ostar, hoN⟩ k κ0 hyx hoN (n1 + i0)
            (fun m hm => hstuck m (by omega)) hostar m5 hm5 hgood hpass

/-- C5, amended (the claim as stated is refuted by
`eventual_entry_counterexample`): under a fair scheduler, every thread that
is inside a `lock` call eventually enters its critical section, provided the
overflow branch of `checked_add` is never taken on the execution.  The
claim's release proviso is subsumed by fairness here: a thread in its
critical section performs `unlock` at its next own step. -/
theorem eventual_entry_no_overflow {N : ℕ} (sched : ℕ → Fin N)
    (hfair : Fair sched)
    (hno : ∀ (n : ℕ) (t : Fin N) (j m : ℕ),
      (traceOf sched n).pc t = .scan j m → N ≤ j → m + 1 < TICKET_MOD)
    (t : Fin N) (n : ℕ) (hin : inLock ((traceOf sched n).pc t) = true) :
    ∃ m, n ≤ m ∧ ((traceOf sched m).pc t).isCrit = true := by
  by_contra hcon
  push_neg at hcon
  simp only [Bool.not_eq_true] at hcon
  have hwf : ∃ m2 k2, n ≤ m2 ∧ ((traceOf sched m2).pc t).waitsWith k2 := by
    cases hp : (traceOf sched n).pc t with
    | ncs =>
        rw [hp] at hin
        exact absurd hin (by simp [inLock])
    | crit κ =>
        have h2 := hcon n le_rfl
        rw [hp] at h2
        exact absurd h2 (by simp [PC.isCrit])
    | wait1 κ o => exact ⟨n, κ, le_rfl, by rw [hp]; rfl⟩
    | wait2 κ o => exact ⟨n, κ, le_rfl, by rw [hp]; rfl⟩
    | chooseStart =>
        obtain ⟨m2, κ, hm2, h2⟩ := doorway hfair hno t (N + 4) n
          (by rw [hp]; simp only [doorMeasure]; omega)
          (by rw [hp]; rfl) (by rw [hp]; rfl)
        exact ⟨m2, κ, hm2, by rw [h2]; rfl⟩
    | scan j mm =>
        obtain ⟨m2, κ, hm2, h2⟩ := doorway hfair hno t (N + 4) n
          (by rw [hp]; simp only [doorMeasure]; omega)
          (by rw [hp]; rfl) (by rw [hp]; rfl)
        exact ⟨m2, κ, hm2, by rw [h2]; rfl⟩
    | clearChoosing κ =>
        obtain ⟨m2, κ2, hm2, h2⟩ := doorway hfair hno t (N + 4) n
          (by rw [hp]; simp only [doorMeasure]; omega)
          (by rw [hp]; rfl) (by rw [hp]; rfl)
        exact ⟨m2, κ2, hm2, by rw [h2]; rfl⟩
  obtain ⟨m2, k2, hm2, hw2⟩ := hwf
  have hstuck : ∀ m, m2 ≤ m → ((traceOf sched m).pc t).waitsWith k2 :=
    wait_persist t k2 m2 (fun m hm => hcon m (by omega)) hw2
  exact stuck_false hfair hno (k2 * N + t.val) t k2 le_rfl m2 hstuck

theorem run_add {N : ℕ} (s : State N) (t : Fin N) (a : ℕ) :
    ∀ b, run s t (a + b) = run (run s t a) t b := by
  intro b
  induction b with
  | zero => rfl
  | succ b ih =>
      rw [show a + (b + 1) = (a + b) + 1 from rfl, run_succ, ih, run_succ]

/-- The constant one-thread schedule drives the solo execution. -/
theorem traceOf_solo : ∀ n,
    traceOf (fun _ => (0 : Fin 1)) n = run (initState 1) 0 n
  | 0 => rfl
  | n + 1 => by
      show step (traceOf (fun _ => (0 : Fin 1)) n) 0 = _
      rw [traceOf_solo n, run_succ]

/-- A single thread cycles through `lock`, the critical section and `unlock`
with period 8. -/
theorem solo_cycle : run (initState 1) 0 8 = initState 1 := by
  apply State.ext' <;> intro u <;> fin_cases u <;> rfl

theorem solo_reduce (n : ℕ) :
    run (initState 1) 0 n = run (initState 1) 0 (n % 8) := by
  have h : ∀ q r, run (initState 1) 0 (8 * q + r) = run (initState 1) 0 r := by
    intro q
    induction q with
    | zero =>
        intro r
        norm_num
    | succ q ih =>
        intro r
        have h2 : 8 * (q + 1) + r = 8 + (8 * q + r) := by ring
        rw [h2, run_add, solo_cycle, ih]
  have hd := Nat.div_add_mod n 8
  calc run (initState 1) 0 n
      = run (initState 1) 0 (8 * (n / 8) + n % 8) := by rw [hd]
    _ = run (initState 1) 0 (n % 8) := h (n / 8) (n % 8)

/-- The solo trace never observes a ticket maximum anywhere near overflow. -/
theorem solo_no_overflow : ∀ (n : ℕ) (t : Fin 1) (j m : ℕ),
    (traceOf (fun _ => (0 : Fin 1)) n).pc t = .scan j m → 1 ≤ j →
    m + 1 < TICKET_MOD := by
  intro n t j m hpc hj
  have ht0 : t = 0 := Subsingleton.elim t 0
  subst ht0
  rw [traceOf_solo, solo_reduce] at hpc
  have h8 : n % 8 < 8 := Nat.mod_lt n (by omega)
  have hcases : n % 8 = 0 ∨ n % 8 = 1 ∨ n % 8 = 2 ∨ n % 8 = 3 ∨ n % 8 = 4 ∨
      n % 8 = 5 ∨ n % 8 = 6 ∨ n % 8 = 7 := by omega
  rcases hcases with h | h | h | h | h | h | h | h <;> rw [h] at hpc
  · have e0 : (run (initState 1) 0 0).pc 0 = PC.ncs := rfl
    rw [e0] at hpc
    exact absurd hpc (by simp)
  · have e1 : (run (initState 1) 0 1).pc 0 = PC.chooseStart := rfl
    rw [e1] at hpc
    exact absurd hpc (by simp)
  · have e2 : (run (initState 1) 0 2).pc 0 = PC.scan 0 0 := rfl
    rw [e2] at hpc
    injection hpc with h1 h2
    omega
  · have e3 : (run (initState 1) 0 3).pc 0 = PC.scan 1 0 := rfl
    rw [e3] at hpc
    injection hpc with h1 h2
    simp only [TICKET_MOD]
    omega
  · have e4 : (run (initState 1) 0 4).pc 0 = PC.clearChoosing 1 := rfl
    rw [e4] at hpc
    exact absurd hpc (by simp)
  · have e5 : (run (initState 1) 0 5).pc 0 = PC.wait1 1 0 := rfl
    rw [e5] at hpc
    exact absurd hpc (by simp)
  · have e6 : (run (initState 1) 0 6).pc 0 = PC.wait1 1 1 := rfl
    rw [e6] at hpc
    exact absurd hpc (by simp)
  · have e7 : (run (initState 1) 0 7).pc 0 = PC.crit 1 := rfl
    rw [e7] at hpc
    exact absurd hpc (by simp)

/-- Witness for the amended C5: the solo schedule is fair and never
overflows; the single thread is inside `lock` at step 1 and indeed reaches
its critical section. -/
theorem eventual_entry_no_overflow_witness :
    ∃ m, 1 ≤ m ∧ ((traceOf (fun _ => (0 : Fin 1)) m).pc 0).isCrit = true :=
  eventual_entry_no_overflow (fun _ => (0 : Fin 1))
    (fun t n => ⟨n, le_rfl, Subsingleton.elim _ _⟩)
    solo_no_overflow 0 1 (by rfl)

end Bakery
